import Mathlib

/-!
Verification of the ephemeral-vrf repository against its specification.

The development shallowly embeds the parts of the Rust sources that the
checked claims are about:

* the SHA-256 / SHA-512 hash functions used by `solana_program::hash` and
  the `sha2` crate (implemented concretely, bytes are `Nat` values < 256);
* the ristretto255 group operations used by `curve25519-dalek` and
  `solana-curve25519` (field arithmetic over 2^255-19 on `Nat`, the
  Elligator one-way map, point compression and decompression, and dalek's
  constant-time point equality);
* the on-chain `hash_to_point` / `hash_to_scalar` / `verify_vrf` of
  `program/src/provide_randomness.rs` and the off-chain VRF demo of
  `src/main.rs`;
* the zero-copy queue arena of `api/src/state/queue.rs` (`load`,
  `add_item`, `iter_items`, `get_item_by_index`, `remove_item`, and the
  `QueueItem` accessors) over a byte-addressed account memory;
* the handlers `process_modify_oracles`, `process_request_randomness`
  (its id derivation), the queue part of `process_provide_randomness`,
  and `transfer_fee`.

All definitions are executable; fuel parameters replace the Rust `while`
loops (with fuel large enough the recursion is exactly the loop).
-/

set_option maxRecDepth 100000

namespace EVrf

/-! ### Bytes and little/big-endian encodings

A byte is a `Nat` kept below 256 by construction. `leNat` interprets a byte
list little-endian (`Scalar::from_bytes_mod_order`, `FieldElement::from_bytes`
semantics); `natLe`/`natBe` produce fixed-width encodings. -/

/-- Little-endian interpretation of a byte list as a natural number. -/
def leNat : List Nat → Nat
  | [] => 0
  | b :: bs => b % 256 + 256 * leNat bs

/-- `n` as `w` little-endian bytes (truncating above `2^(8w)`). -/
def natLe (w n : Nat) : List Nat :=
  match w with
  | 0 => []
  | w + 1 => n % 256 :: natLe w (n / 256)

/-- `n` as `w` big-endian bytes (truncating above `2^(8w)`). -/
def natBe (w n : Nat) : List Nat :=
  (natLe w n).reverse

theorem natLe_length (w n : Nat) : (natLe w n).length = w := by
  induction w generalizing n with
  | zero => rfl
  | succ w ih => simp [natLe, ih]

theorem leNat_natLe (w n : Nat) (h : n < 2 ^ (8 * w)) : leNat (natLe w n) = n := by
  induction w generalizing n with
  | zero => simpa [natLe, leNat] using (Nat.lt_one_iff.mp (by simpa using h)).symm
  | succ w ih =>
      have hdiv : n / 256 < 2 ^ (8 * w) := by
        apply Nat.div_lt_of_lt_mul
        calc n < 2 ^ (8 * (w + 1)) := h
        _ = 2 ^ (8 * w) * 256 := by ring
        _ = 256 * 2 ^ (8 * w) := by ring
      have hm : n % 256 % 256 = n % 256 := Nat.mod_mod_of_dvd n (dvd_refl 256)
      simp only [natLe, leNat, hm, ih _ hdiv]
      omega

/-! ### SHA-256 (as used by `solana_program::hash::hash` / `hashv`) -/

def sha256K : List Nat := [
  1116352408, 1899447441, 3049323471, 3921009573, 961987163, 1508970993, 2453635748, 2870763221,
  3624381080, 310598401, 607225278, 1426881987, 1925078388, 2162078206, 2614888103, 3248222580,
  3835390401, 4022224774, 264347078, 604807628, 770255983, 1249150122, 1555081692, 1996064986,
  2554220882, 2821834349, 2952996808, 3210313671, 3336571891, 3584528711, 113926993, 338241895,
  666307205, 773529912, 1294757372, 1396182291, 1695183700, 1986661051, 2177026350, 2456956037,
  2730485921, 2820302411, 3259730800, 3345764771, 3516065817, 3600352804, 4094571909, 275423344,
  430227734, 506948616, 659060556, 883997877, 958139571, 1322822218, 1537002063, 1747873779,
  1955562222, 2024104815, 2227730452, 2361852424, 2428436474, 2756734187, 3204031479, 3329325298]

def sha256H0 : List Nat :=
  [1779033703, 3144134277, 1013904242, 2773480762, 1359893119, 2600822924, 528734635, 1541459225]

/-- Right-rotation of a `w`-bit word. -/
def rotr (w n x : Nat) : Nat :=
  ((x >>> n) ||| (x <<< (w - n))) % 2 ^ w

/-- Hash state: eight working words. -/
structure Hs where
  a : Nat
  b : Nat
  c : Nat
  d : Nat
  e : Nat
  f : Nat
  g : Nat
  h : Nat
deriving Repr, DecidableEq

/-- One SHA-256 round for round constant `k` and schedule word `w`. -/
def sha256Round (s : Hs) (k w : Nat) : Hs :=
  let S1 := (rotr 32 6 s.e) ^^^ (rotr 32 11 s.e) ^^^ (rotr 32 25 s.e)
  let ch := (s.e &&& s.f) ^^^ ((s.e ^^^ 4294967295) &&& s.g)
  let t1 := (s.h + S1 + ch + k + w) % 2 ^ 32
  let S0 := (rotr 32 2 s.a) ^^^ (rotr 32 13 s.a) ^^^ (rotr 32 22 s.a)
  let mj := (s.a &&& s.b) ^^^ (s.a &&& s.c) ^^^ (s.b &&& s.c)
  let t2 := (S0 + mj) % 2 ^ 32
  ⟨(t1 + t2) % 2 ^ 32, s.a, s.b, s.c, (s.d + t1) % 2 ^ 32, s.e, s.f, s.g⟩

/-- Extend the (reversed) message schedule by `fuel` additional words. -/
def sha256Extend : Nat → List Nat → List Nat
  | 0, ws => ws
  | fuel + 1, ws =>
    let g := fun i => ws.getD i 0
    let s0 := (rotr 32 7 (g 14)) ^^^ (rotr 32 18 (g 14)) ^^^ ((g 14) >>> 3)
    let s1 := (rotr 32 17 (g 1)) ^^^ (rotr 32 19 (g 1)) ^^^ ((g 1) >>> 10)
    sha256Extend fuel (((g 15 + s0 + g 6 + s1) % 2 ^ 32) :: ws)

/-- Split a list into chunks of `sz` elements (`fuel` bounds the recursion). -/
def chunks (sz : Nat) : Nat → List Nat → List (List Nat)
  | _, [] => []
  | 0, _ => []
  | fuel + 1, bs => bs.take sz :: chunks sz fuel (bs.drop sz)

/-- Decode a block of `4w`-byte big-endian words of width `w` bytes. -/
def beWords (w : Nat) (block : List Nat) : List Nat :=
  (chunks w (block.length + 1) block).map (fun c => leNat c.reverse)

/-- Compress one 64-byte block into the 8-word state. -/
def sha256Block (hv : List Nat) (block : List Nat) : List Nat :=
  let ws := (sha256Extend 48 (beWords 4 block).reverse).reverse
  let s0 : Hs := ⟨hv.getD 0 0, hv.getD 1 0, hv.getD 2 0, hv.getD 3 0,
                  hv.getD 4 0, hv.getD 5 0, hv.getD 6 0, hv.getD 7 0⟩
  let s := (sha256K.zip ws).foldl (fun s kw => sha256Round s kw.1 kw.2) s0
  [(hv.getD 0 0 + s.a) % 2 ^ 32, (hv.getD 1 0 + s.b) % 2 ^ 32,
   (hv.getD 2 0 + s.c) % 2 ^ 32, (hv.getD 3 0 + s.d) % 2 ^ 32,
   (hv.getD 4 0 + s.e) % 2 ^ 32, (hv.getD 5 0 + s.f) % 2 ^ 32,
   (hv.getD 6 0 + s.g) % 2 ^ 32, (hv.getD 7 0 + s.h) % 2 ^ 32]

/-- SHA padding: append `0x80`, zeros, and the bit length as a `lw`-byte
big-endian integer, to a multiple of `bs` bytes. -/
def shaPad (bs lw : Nat) (msg : List Nat) : List Nat :=
  let L := msg.length
  let zeros := (bs - (L + 1 + lw) % bs) % bs
  msg ++ 128 :: List.replicate zeros 0 ++ natBe lw (8 * L)

/-- SHA-256 digest (32 bytes) of a byte list. -/
def sha256 (msg : List Nat) : List Nat :=
  let blocks := chunks 64 (msg.length + 9) (shaPad 64 8 msg)
  (blocks.foldl sha256Block sha256H0).flatMap (natBe 4)

example : sha256 [] =
    [227, 176, 196, 66, 152, 252, 28, 20, 154, 251, 244, 200, 153, 111, 185, 36,
     39, 174, 65, 228, 100, 155, 147, 76, 164, 149, 153, 27, 120, 82, 184, 85] := by decide

example : sha256 [97, 98, 99] =
    [186, 120, 22, 191, 143, 1, 207, 234, 65, 65, 64, 222, 93, 174, 34, 35,
     176, 3, 97, 163, 150, 23, 122, 156, 180, 16, 255, 97, 242, 0, 21, 173] := by decide

/-! ### SHA-512 (as used by the `sha2` crate in the off-chain prover) -/

def sha512K : List Nat := [
  4794697086780616226, 8158064640168781261, 13096744586834688815, 16840607885511220156,
  4131703408338449720, 6480981068601479193, 10538285296894168987, 12329834152419229976,
  15566598209576043074, 1334009975649890238, 2608012711638119052, 6128411473006802146,
  8268148722764581231, 9286055187155687089, 11230858885718282805, 13951009754708518548,
  16472876342353939154, 17275323862435702243, 1135362057144423861, 2597628984639134821,
  3308224258029322869, 5365058923640841347, 6679025012923562964, 8573033837759648693,
  10970295158949994411, 12119686244451234320, 12683024718118986047, 13788192230050041572,
  14330467153632333762, 15395433587784984357, 489312712824947311, 1452737877330783856,
  2861767655752347644, 3322285676063803686, 5560940570517711597, 5996557281743188959,
  7280758554555802590, 8532644243296465576, 9350256976987008742, 10552545826968843579,
  11727347734174303076, 12113106623233404929, 14000437183269869457, 14369950271660146224,
  15101387698204529176, 15463397548674623760, 17586052441742319658, 1182934255886127544,
  1847814050463011016, 2177327727835720531, 2830643537854262169, 3796741975233480872,
  4115178125766777443, 5681478168544905931, 6601373596472566643, 7507060721942968483,
  8399075790359081724, 8693463985226723168, 9568029438360202098, 10144078919501101548,
  10430055236837252648, 11840083180663258601, 13761210420658862357, 14299343276471374635,
  14566680578165727644, 15097957966210449927, 16922976911328602910, 17689382322260857208,
  500013540394364858, 748580250866718886, 1242879168328830382, 1977374033974150939,
  2944078676154940804, 3659926193048069267, 4368137639120453308, 4836135668995329356,
  5532061633213252278, 6448918945643986474, 6902733635092675308, 7801388544844847127]

def sha512H0 : List Nat :=
  [7640891576956012808, 13503953896175478587, 4354685564936845355, 11912009170470909681,
   5840696475078001361, 11170449401992604703, 2270897969802886507, 6620516959819538809]

/-- One SHA-512 round. -/
def sha512Round (s : Hs) (k w : Nat) : Hs :=
  let S1 := (rotr 64 14 s.e) ^^^ (rotr 64 18 s.e) ^^^ (rotr 64 41 s.e)
  let ch := (s.e &&& s.f) ^^^ ((s.e ^^^ (2 ^ 64 - 1)) &&& s.g)
  let t1 := (s.h + S1 + ch + k + w) % 2 ^ 64
  let S0 := (rotr 64 28 s.a) ^^^ (rotr 64 34 s.a) ^^^ (rotr 64 39 s.a)
  let mj := (s.a &&& s.b) ^^^ (s.a &&& s.c) ^^^ (s.b &&& s.c)
  let t2 := (S0 + mj) % 2 ^ 64
  ⟨(t1 + t2) % 2 ^ 64, s.a, s.b, s.c, (s.d + t1) % 2 ^ 64, s.e, s.f, s.g⟩

/-- Extend the (reversed) SHA-512 schedule by `fuel` words. -/
def sha512Extend : Nat → List Nat → List Nat
  | 0, ws => ws
  | fuel + 1, ws =>
    let g := fun i => ws.getD i 0
    let s0 := (rotr 64 1 (g 14)) ^^^ (rotr 64 8 (g 14)) ^^^ ((g 14) >>> 7)
    let s1 := (rotr 64 19 (g 1)) ^^^ (rotr 64 61 (g 1)) ^^^ ((g 1) >>> 6)
    sha512Extend fuel (((g 15 + s0 + g 6 + s1) % 2 ^ 64) :: ws)

/-- Compress one 128-byte block into the 8-word SHA-512 state. -/
def sha512Block (hv : List Nat) (block : List Nat) : List Nat :=
  let ws := (sha512Extend 64 (beWords 8 block).reverse).reverse
  let s0 : Hs := ⟨hv.getD 0 0, hv.getD 1 0, hv.getD 2 0, hv.getD 3 0,
                  hv.getD 4 0, hv.getD 5 0, hv.getD 6 0, hv.getD 7 0⟩
  let s := (sha512K.zip ws).foldl (fun s kw => sha512Round s kw.1 kw.2) s0
  [(hv.getD 0 0 + s.a) % 2 ^ 64, (hv.getD 1 0 + s.b) % 2 ^ 64,
   (hv.getD 2 0 + s.c) % 2 ^ 64, (hv.getD 3 0 + s.d) % 2 ^ 64,
   (hv.getD 4 0 + s.e) % 2 ^ 64, (hv.getD 5 0 + s.f) % 2 ^ 64,
   (hv.getD 6 0 + s.g) % 2 ^ 64, (hv.getD 7 0 + s.h) % 2 ^ 64]

/-- SHA-512 digest (64 bytes) of a byte list. -/
def sha512 (msg : List Nat) : List Nat :=
  let blocks := chunks 128 (msg.length + 17) (shaPad 128 16 msg)
  (blocks.foldl sha512Block sha512H0).flatMap (natBe 8)

example : sha512 [97, 98, 99] =
    [221, 175, 53, 161, 147, 97, 122, 186, 204, 65, 115, 73, 174, 32, 65, 49,
     18, 230, 250, 78, 137, 169, 126, 162, 10, 158, 238, 230, 75, 85, 211, 154,
     33, 146, 153, 42, 39, 79, 193, 168, 54, 186, 60, 35, 163, 254, 235, 189,
     69, 77, 68, 35, 100, 60, 232, 14, 42, 154, 201, 79, 165, 76, 164, 159] := by decide

/-! ### The field GF(2^255 - 19)

Field elements are `Nat` values kept reduced below `P25519` by every
operation, mirroring `curve25519_dalek::field::FieldElement`. -/

def P25519 : Nat := 2 ^ 255 - 19

/-- The order of the ristretto255 group (the prime ℓ). -/
def ellOrder : Nat := 2 ^ 252 + 27742317777372353535851937790883648493

def fadd (a b : Nat) : Nat := (a + b) % P25519

def fsub (a b : Nat) : Nat := (a + (P25519 - b % P25519)) % P25519

def fmul (a b : Nat) : Nat := a * b % P25519

def fneg (a : Nat) : Nat := (P25519 - a % P25519) % P25519

/-- `IS_NEGATIVE` of a reduced field element: its canonical encoding is odd. -/
def fIsNeg (a : Nat) : Bool := a % 2 == 1

/-- `CT_ABS` of a reduced field element. -/
def fabs (a : Nat) : Nat := if fIsNeg a then fneg a else a

/-- Square-and-multiply exponentiation mod `P25519` (fuel bounds recursion
on the exponent's bits; 256 suffices for every exponent used). -/
def fpowAux : Nat → Nat → Nat → Nat
  | 0, _, _ => 1
  | fuel + 1, b, e =>
    if e = 0 then 1
    else
      let r := fpowAux fuel (fmul b b) (e / 2)
      if e % 2 = 1 then fmul b r else r

def fpow (b e : Nat) : Nat := fpowAux 256 (b % P25519) e

/-! ### Ristretto255 over the twisted Edwards curve (curve25519-dalek)

Constants and algorithms transcribed from `curve25519-dalek` (equivalently
RFC 9496): `EDWARDS_D`, `SQRT_M1`, `SQRT_AD_MINUS_ONE`, `INVSQRT_A_MINUS_D`,
`sqrt_ratio_i`, `elligator_ristretto_flavor`, point compression and
decompression, and the constant-time point equality. -/

def edD : Nat := 37095705934669439343138083508754565189542113879843219016388785533085940283555

def sqrtM1 : Nat := 19681161376707505956807079304988542015446066515923890162744021073123829784752

def sqrtAdMinusOne : Nat :=
  25063068953384623474111414158702152701244531502492656460079210482610430750235

def invsqrtAMinusD : Nat :=
  54469307008909316920995813868745141605393597292927456921205312896311721017578

def oneMinusDSq : Nat := fsub 1 (fmul edD edD)

def dMinusOneSq : Nat := fmul (fsub edD 1) (fsub edD 1)

example : fmul sqrtM1 sqrtM1 = fneg 1 := by decide

example : fmul sqrtAdMinusOne sqrtAdMinusOne = fsub (fneg edD) 1 := by decide

example : fmul (fmul invsqrtAMinusD invsqrtAMinusD) (fsub (fneg 1) edD) = 1 := by decide

/-- `FieldElement::sqrt_ratio_i(u, v)`: whether `u/v` is square, and the
(absolute value of the) square root of `u/v` or of `i·u/v`. -/
def sqrtRatioM1 (u v : Nat) : Bool × Nat :=
  let v3 := fmul (fmul v v) v
  let v7 := fmul (fmul v3 v3) v
  let r0 := fmul (fmul u v3) (fpow (fmul u v7) ((P25519 - 5) / 8))
  let check := fmul v (fmul r0 r0)
  let correct := check == u % P25519
  let flipped := check == fneg u
  let flippedI := check == fmul (fneg u) sqrtM1
  let r1 := if flipped || flippedI then fmul r0 sqrtM1 else r0
  (correct || flipped, fabs r1)

/-- A curve point in extended twisted Edwards coordinates (X : Y : Z : T). -/
structure EdPoint where
  X : Nat
  Y : Nat
  Z : Nat
  T : Nat
deriving Repr, DecidableEq

/-- The identity element. -/
def edZero : EdPoint := ⟨0, 1, 1, 0⟩

/-- Unified addition in extended coordinates (a = -1, complete). -/
def edAdd (p q : EdPoint) : EdPoint :=
  let A := fmul (fsub p.Y p.X) (fsub q.Y q.X)
  let B := fmul (fadd p.Y p.X) (fadd q.Y q.X)
  let C := fmul (fmul p.T (fadd edD edD)) q.T
  let D := fmul (fadd p.Z p.Z) q.Z
  let E := fsub B A
  let F := fsub D C
  let G := fadd D C
  let H := fadd B A
  ⟨fmul E F, fmul G H, fmul F G, fmul E H⟩

/-- Double-and-add scalar multiplication (fuel ≥ bit length of `n`). -/
def smulAux : Nat → Nat → EdPoint → EdPoint
  | 0, _, _ => edZero
  | fuel + 1, n, p =>
    if n = 0 then edZero
    else
      let r := smulAux fuel (n / 2) (edAdd p p)
      if n % 2 = 1 then edAdd p r else r

def smul (n : Nat) (p : EdPoint) : EdPoint := smulAux 300 n p

/-- The Ed25519 basepoint (x, 4/5) with x even, in extended coordinates. -/
def edB : EdPoint :=
  let bx := 15112221349535400772501151409588531511454012693041857206046113283949847762202
  let by0 := 46316835694926478169428394003475163141307993866256225615783033603165251855960
  ⟨bx, by0, 1, fmul bx by0⟩

/-- `elligator_ristretto_flavor` / the RFC 9496 MAP function. -/
def elligator (t : Nat) : EdPoint :=
  let r0 := t % P25519
  let r := fmul sqrtM1 (fmul r0 r0)
  let Ns := fmul (fadd r 1) oneMinusDSq
  let c0 := fneg 1
  let Dv := fmul (fsub c0 (fmul edD r)) (fadd r edD)
  let sq := sqrtRatioM1 Ns Dv
  let s0 := sq.2
  let sp0 := fmul s0 r0
  let sPrime := if fIsNeg sp0 then sp0 else fneg sp0
  let s := if sq.1 then s0 else sPrime
  let c := if sq.1 then c0 else r
  let Nt := fsub (fmul (fmul c (fsub r 1)) dMinusOneSq) Dv
  let sSq := fmul s s
  let wX := fmul (fadd s s) Dv
  let wZ := fmul Nt sqrtAdMinusOne
  let wY := fsub 1 sSq
  let wT := fadd 1 sSq
  ⟨fmul wX wT, fmul wY wZ, fmul wZ wT, fmul wX wY⟩

/-- Ristretto point compression (`RistrettoPoint::compress`): the canonical
32-byte little-endian encoding. -/
def compress (p : EdPoint) : List Nat :=
  let u1 := fmul (fadd p.Z p.Y) (fsub p.Z p.Y)
  let u2 := fmul p.X p.Y
  let invsqrt := (sqrtRatioM1 1 (fmul u1 (fmul u2 u2))).2
  let den1 := fmul invsqrt u1
  let den2 := fmul invsqrt u2
  let zInv := fmul (fmul den1 den2) p.T
  let ix0 := fmul p.X sqrtM1
  let iy0 := fmul p.Y sqrtM1
  let enchanted := fmul den1 invsqrtAMinusD
  let rotate := fIsNeg (fmul p.T zInv)
  let x := if rotate then iy0 else p.X
  let y0 := if rotate then ix0 else p.Y
  let denInv := if rotate then enchanted else den2
  let y := if fIsNeg (fmul x zInv) then fneg y0 else y0
  natLe 32 (fabs (fmul denInv (fsub p.Z y)))

/-- Ristretto point decompression (`CompressedRistretto::decompress`):
`none` on a non-canonical, negative, or invalid encoding. -/
def decompress (b : List Nat) : Option EdPoint :=
  let s := leNat b
  if s < P25519 ∧ s % 2 = 0 then
    let ss := fmul s s
    let u1 := fsub 1 ss
    let u2 := fadd 1 ss
    let u2sqr := fmul u2 u2
    let v := fsub (fneg (fmul edD (fmul u1 u1))) u2sqr
    let iv := sqrtRatioM1 1 (fmul v u2sqr)
    let denX := fmul iv.2 u2
    let denY := fmul (fmul iv.2 denX) v
    let x := fabs (fmul (fadd s s) denX)
    let y := fmul u1 denY
    let t := fmul x y
    if iv.1 = false ∨ fIsNeg t ∨ y = 0 then none else some ⟨x, y, 1, t⟩
  else none

/-- Dalek's `RistrettoPoint` equality (`ConstantTimeEq`): the two extended
points represent the same ristretto255 element. -/
def ristrettoEq (p q : EdPoint) : Bool :=
  (fmul p.X q.Y == fmul p.Y q.X) || (fmul p.X q.X == fmul p.Y q.Y)

/-- The compressed basepoint hardcoded in `api/src/consts.rs`
(`RISTRETTO_BASEPOINT_POINT`). -/
def ristrettoBasepointBytes : List Nat :=
  [226, 242, 174, 10, 106, 188, 78, 113, 168, 132, 169, 97, 197, 0, 81, 95,
   88, 227, 11, 106, 165, 130, 221, 141, 182, 166, 89, 69, 224, 141, 45, 118]

example : compress edB = ristrettoBasepointBytes := by decide

example : (decompress ristrettoBasepointBytes).any (fun p => ristrettoEq p edB) = true := by
  decide

example : compress edZero = List.replicate 32 0 := by decide

example : decompress (List.replicate 32 0) = some edZero := by decide

/-! ### solana-curve25519 syscall wrappers

`PodRistrettoPoint` is a compressed 32-byte encoding, `PodScalar` a 32-byte
little-endian scalar. `multiply_ristretto` / `add_ristretto` decompress,
operate, and recompress, returning `None` on any decoding failure
(`Scalar::from_canonical_bytes` rejects non-canonical scalars). -/

/-- `PodScalar` → `Scalar` conversion (`Scalar::from_canonical_bytes`). -/
def podScalarDecode (b : List Nat) : Option Nat :=
  let n := leNat b
  if n < ellOrder then some n else none

/-- `solana_curve25519::ristretto::multiply_ristretto`. -/
def multiplyRistretto (s pt : List Nat) : Option (List Nat) :=
  match podScalarDecode s, decompress pt with
  | some n, some p => some (compress (smul n p))
  | _, _ => none

/-- `solana_curve25519::ristretto::add_ristretto`. -/
def addRistretto (a b : List Nat) : Option (List Nat) :=
  match decompress a, decompress b with
  | some p, some q => some (compress (edAdd p q))
  | _, _ => none

/-- `Scalar::from_bytes_mod_order`: 32 little-endian bytes reduced mod ℓ. -/
def scalarFromBytesModOrder (b : List Nat) : Nat := leNat b % ellOrder

/-! ### Domain-separation prefixes (`api/src/consts.rs`, `src/main.rs`) -/

/-- The bytes of `b"VRF-Ephem-HashToPoint"`. -/
def VRF_PREFIX_HASH_TO_POINT : List Nat :=
  [86, 82, 70, 45, 69, 112, 104, 101, 109, 45, 72, 97, 115, 104, 84, 111, 80, 111, 105, 110, 116]

/-- The bytes of `b"VRF-Ephem-Challenge"`. -/
def VRF_PREFIX_CHALLENGE : List Nat :=
  [86, 82, 70, 45, 69, 112, 104, 101, 109, 45, 67, 104, 97, 108, 108, 101, 110, 103, 101]

/-! ### The on-chain hash-to-point / verifier
(`program/src/provide_randomness.rs`) -/

/-- `hash_to_scalar` of `provide_randomness.rs`: the canonical `PodScalar`
bytes of the input reduced mod ℓ. -/
def onchainHashToScalar (input : List Nat) : List Nat :=
  natLe 32 (scalarFromBytesModOrder input)

/-- `hash_to_point` of `provide_randomness.rs`: SHA-256 the prefixed input,
reduce to a scalar, and multiply the hardcoded compressed basepoint.
(The Rust `.unwrap()` is the `Option` here; it never fails since the
basepoint constant decompresses.) -/
def onchainHashToPoint (input : List Nat) : Option (List Nat) :=
  let hashedInput := sha256 (VRF_PREFIX_HASH_TO_POINT ++ input)
  multiplyRistretto (onchainHashToScalar hashedInput) ristrettoBasepointBytes

/-- `verify_vrf` of `provide_randomness.rs` over compressed encodings:
recompute `h` and the challenge, then check `s·G == R_G + c·pk` and
`s·h == R_H + c·output`, returning `false` on any decoding failure. -/
def onchainVerifyVrf (pk input output cBase cHash s : List Nat) : Bool :=
  match onchainHashToPoint input with
  | none => false
  | some h =>
    let challengeInput :=
      VRF_PREFIX_CHALLENGE ++ output ++ cBase ++ cHash ++ pk ++ input
    let c := onchainHashToScalar (sha256 challengeInput)
    match multiplyRistretto s ristrettoBasepointBytes with
    | none => false
    | some lhsBase =>
      match multiplyRistretto c pk with
      | none => false
      | some rhsBaseR =>
        match addRistretto cBase rhsBaseR with
        | none => false
        | some rhsBase =>
          match multiplyRistretto s h with
          | none => false
          | some lhsHash =>
            match multiplyRistretto c output with
            | none => false
            | some rhsHashR =>
              match addRistretto cHash rhsHashR with
              | none => false
              | some rhsHash => lhsBase == rhsBase && lhsHash == rhsHash

/-! ### The off-chain prover's hash-to-point (`src/main.rs`) -/

/-- `FieldElement::from_bytes`: 32 little-endian bytes, high bit masked. -/
def fieldFromBytes (b : List Nat) : Nat := leNat b % 2 ^ 255 % P25519

/-- `RistrettoPoint::from_uniform_bytes`: Elligator on each 32-byte half of
a 64-byte string, summed. -/
def ristrettoFromUniformBytes (b : List Nat) : EdPoint :=
  edAdd (elligator (fieldFromBytes (b.take 32))) (elligator (fieldFromBytes (b.drop 32)))

/-- `hash_to_point` of the off-chain prover (`src/main.rs`):
`RistrettoPoint::hash_from_bytes::<Sha512>` on the prefixed input. -/
def offchainHashToPoint (input : List Nat) : EdPoint :=
  ristrettoFromUniformBytes (sha512 (VRF_PREFIX_HASH_TO_POINT ++ input))

/-- The construction the specification describes for `hash_to_point`: a
64-byte SHA-512 over `"VRF-Ephem-HashToPoint" ‖ input`, mapped to the group
by the uniform-bytes construction. -/
def specHashToPoint (input : List Nat) : EdPoint :=
  ristrettoFromUniformBytes (sha512 (VRF_PREFIX_HASH_TO_POINT ++ input))

/-- The 32-byte all-zero input (a representative request id). -/
def c1Input : List Nat := List.replicate 32 0

/-- **C1, counterexample.** At the all-zero 32-byte input the on-chain
`hash_to_point` yields a valid compressed point that is *not* (under
dalek's own ristretto equality) the point computed by the off-chain
prover's `hash_to_point`; in particular the compressed encodings differ.
This refutes the claim that the two functions agree on every input. -/
theorem c1_counterexample :
    ((onchainHashToPoint c1Input).bind decompress).isSome = true ∧
    ((onchainHashToPoint c1Input).bind decompress).any
      (fun p => ristrettoEq p (offchainHashToPoint c1Input)) = false ∧
    onchainHashToPoint c1Input ≠ some (compress (offchainHashToPoint c1Input)) :=
  ⟨by decide, by decide, by decide⟩

/-- **C1, amended.** The off-chain prover's `hash_to_point` is exactly the
specification's SHA-512 uniform-bytes construction, but the on-chain
verifier's `hash_to_point` instead multiplies the basepoint by the scalar
`SHA-256("VRF-Ephem-HashToPoint" ‖ input) mod ℓ`; the two disagree, e.g.
at the all-zero 32-byte input. -/
theorem c1_hash_to_point_divergence :
    (∀ input, offchainHashToPoint input = specHashToPoint input) ∧
    (∀ input, onchainHashToPoint input =
      multiplyRistretto (natLe 32 (leNat (sha256 (VRF_PREFIX_HASH_TO_POINT ++ input)) % ellOrder))
        ristrettoBasepointBytes) ∧
    ((onchainHashToPoint c1Input).bind decompress).any
      (fun p => ristrettoEq p (specHashToPoint c1Input)) = false ∧
    ((onchainHashToPoint c1Input).bind decompress).isSome = true :=
  ⟨fun _ => rfl, fun _ => rfl, by decide, by decide⟩

/-! ### The off-chain VRF core (`src/main.rs`), generically over the group

The VRF core calls curve25519-dalek through a small set of primitives:
the Ristretto group (an additive commutative group that is a module over
the scalar ring), the basepoint, compression/decompression, byte
serialisation of compressed points and scalars, the SHA-512 hash-to-scalar
and hash-to-point constructions, and HKDF-SHA-512. The embedding is
parametric in these; `intPrims` below is a (degenerate but lawful)
instantiation used to evaluate the theorems on concrete inputs. -/

/-- The dalek primitives used by `src/main.rs`, over scalars `S`, points
`G` and compressed points `C`. -/
structure DalekPrims (S G C : Type) [CommRing S] [AddCommGroup G] [Module S G] where
  basepoint : G
  compressPt : G → C
  decompressPt : C → Option G
  ptBytes : C → List Nat
  scalarBytes : S → List Nat
  scalarHashFromBytes : List Nat → S
  pointHashFromBytes : List Nat → G
  hkdfSha512 : List Nat → List Nat → List Nat → List Nat
  scalarFromBytes : List Nat → S

/-- The bytes of `b"VRF-Ephem-Nonce"`. -/
def VRF_PREFIX_NONCE : List Nat :=
  [86, 82, 70, 45, 69, 112, 104, 101, 109, 45, 78, 111, 110, 99, 101]

/-- The bytes of `b"VRF-Solana-SecretKey"`. -/
def VRF_HKDF_SALT : List Nat :=
  [86, 82, 70, 45, 83, 111, 108, 97, 110, 97, 45, 83, 101, 99, 114, 101, 116, 75, 101, 121]

/-- The bytes of `b"VRF-Key"`. -/
def VRF_HKDF_INFO : List Nat := [86, 82, 70, 45, 75, 101, 121]

section VrfCore

variable {S G C : Type} [CommRing S] [AddCommGroup G] [Module S G] [DecidableEq G]

/-- `generate_vrf_keypair` (`src/main.rs`): HKDF-SHA-512 with salt
`"VRF-Solana-SecretKey"` on the 64 keypair bytes, info `"VRF-Key"`; the
first 32 output bytes become `sk` mod order, and `pk = sk·G`. -/
def generate_vrf_keypair (pr : DalekPrims S G C) (keypairBytes : List Nat) : S × G :=
  let okm := pr.hkdfSha512 VRF_HKDF_SALT keypairBytes VRF_HKDF_INFO
  let sk := pr.scalarFromBytes (okm.take 32)
  (sk, sk • pr.basepoint)

/-- `compute_vrf` (`src/main.rs`): output `sk·h`, commitments `k·G`, `k·h`,
challenge from the compressed points, response `s = k + c·sk`. -/
def compute_vrf (pr : DalekPrims S G C) (sk : S) (input : List Nat) :
    C × (C × C × S) :=
  let h := pr.pointHashFromBytes (VRF_PREFIX_HASH_TO_POINT ++ input)
  let vrfOutput := sk • h
  let pk := sk • pr.basepoint
  let k := pr.scalarHashFromBytes (VRF_PREFIX_NONCE ++ pr.scalarBytes sk ++ input)
  let commitmentBase := k • pr.basepoint
  let commitmentHash := k • h
  let challengeInput :=
    VRF_PREFIX_CHALLENGE ++ pr.ptBytes (pr.compressPt vrfOutput)
      ++ pr.ptBytes (pr.compressPt commitmentBase)
      ++ pr.ptBytes (pr.compressPt commitmentHash)
      ++ pr.ptBytes (pr.compressPt pk) ++ input
  let c := pr.scalarHashFromBytes challengeInput
  let s := k + c * sk
  (pr.compressPt vrfOutput, (pr.compressPt commitmentBase, pr.compressPt commitmentHash, s))

/-- `verify_vrf` (`src/main.rs`): decompress the output and commitments,
recompute `h` and the challenge, and check the two Schnorr equations. -/
def verify_vrf (pr : DalekPrims S G C) (pk : G) (input : List Nat)
    (outputCompressed : C) (proof : C × C × S) : Bool :=
  let (cBase, cHash, s) := proof
  match pr.decompressPt outputCompressed with
  | none => false
  | some output =>
    match pr.decompressPt cBase with
    | none => false
    | some commitmentBase =>
      match pr.decompressPt cHash with
      | none => false
      | some commitmentHash =>
        let h := pr.pointHashFromBytes (VRF_PREFIX_HASH_TO_POINT ++ input)
        let challengeInput :=
          VRF_PREFIX_CHALLENGE ++ pr.ptBytes outputCompressed
            ++ pr.ptBytes cBase ++ pr.ptBytes cHash
            ++ pr.ptBytes (pr.compressPt pk) ++ input
        let c := pr.scalarHashFromBytes challengeInput
        decide (s • pr.basepoint = commitmentBase + c • pk) &&
          decide (s • h = commitmentHash + c • output)

/-- **C2.** For every keypair-derivation input, the derived `pk` is
`sk·G`, and — whenever decompression inverts compression, as it does for
Ristretto — verifying a proof produced by `compute_vrf` under the derived
keypair succeeds on every input. -/
theorem c2_keygen_relation_and_vrf_completeness (pr : DalekPrims S G C)
    (hround : ∀ p : G, pr.decompressPt (pr.compressPt p) = some p)
    (keypairBytes input : List Nat) :
    (generate_vrf_keypair pr keypairBytes).2 =
      (generate_vrf_keypair pr keypairBytes).1 • pr.basepoint ∧
    verify_vrf pr (generate_vrf_keypair pr keypairBytes).2 input
      (compute_vrf pr (generate_vrf_keypair pr keypairBytes).1 input).1
      (compute_vrf pr (generate_vrf_keypair pr keypairBytes).1 input).2 = true := by
  constructor
  · rfl
  · simp only [generate_vrf_keypair, compute_vrf, verify_vrf, hround]
    have key : ∀ (k c sk : S) (q : G),
        (k + c * sk) • q = k • q + c • (sk • q) := by
      intro k c sk q
      rw [add_smul, mul_smul]
    simp [key]

end VrfCore

/-- A degenerate but lawful instantiation of the dalek primitives over the
integers (the group is `ℤ` as a module over itself, compression is the
identity), used only to evaluate the VRF-core theorems concretely. -/
def intPrims : DalekPrims ℤ ℤ ℤ where
  basepoint := 1
  compressPt := id
  decompressPt := fun z => some z
  ptBytes := fun _ => []
  scalarBytes := fun _ => []
  scalarHashFromBytes := fun bs => (leNat bs : ℤ)
  pointHashFromBytes := fun bs => (leNat bs : ℤ)
  hkdfSha512 := fun _ ikm _ => ikm ++ List.replicate 64 0
  scalarFromBytes := fun bs => (leNat bs : ℤ)

/-- **C2, witness.** The completeness theorem applied to the integer
instantiation at a concrete keypair input and VRF input. -/
theorem c2_witness :
    (generate_vrf_keypair intPrims [7, 3]).2 =
      (generate_vrf_keypair intPrims [7, 3]).1 • intPrims.basepoint ∧
    verify_vrf intPrims (generate_vrf_keypair intPrims [7, 3]).2 [1, 2, 3]
      (compute_vrf intPrims (generate_vrf_keypair intPrims [7, 3]).1 [1, 2, 3]).1
      (compute_vrf intPrims (generate_vrf_keypair intPrims [7, 3]).1 [1, 2, 3]).2 = true :=
  c2_keygen_relation_and_vrf_completeness intPrims (fun _ => rfl) [7, 3] [1, 2, 3]

/-! ### Program errors

`api/src/error.rs` defines only `Unauthorized`, `RandomnessRequestNotFound`
and `InvalidProof`; the handlers additionally reference variants that are
absent from that enum (and the specification lists more, including
`OracleMustProvideInDifferentSlot`, which no source file defines or
returns). `PErr` is the union of the program's error surface, custom codes
and `solana_program::program_error::ProgramError` codes together. -/

/-- Decidable equality for `Except` results. -/
instance exceptDecEq {ε α : Type} [DecidableEq ε] [DecidableEq α] :
    DecidableEq (Except ε α) := fun x y =>
  match x, y with
  | .error a, .error b =>
    if h : a = b then isTrue (by rw [h]) else
      isFalse (fun hh => h (Except.error.inj hh))
  | .ok a, .ok b =>
    if h : a = b then isTrue (by rw [h]) else
      isFalse (fun hh => h (Except.ok.inj hh))
  | .error _, .ok _ => isFalse (fun hh => Except.noConfusion hh)
  | .ok _, .error _ => isFalse (fun hh => Except.noConfusion hh)

inductive PErr where
  | Unauthorized
  | RandomnessRequestNotFound
  | InvalidProof
  | QueueNotEmpty
  | InvalidCallbackAccounts
  | InvalidQueueIndex
  | ArgumentSizeTooLarge
  | OracleMustProvideInDifferentSlot
  | AccountDataTooSmall
  | InvalidAccountData
  | InvalidArgument
  | InsufficientFunds
  | NotEnoughAccountKeys
  | InvalidInstructionData
  | UnsupportedSysvar
deriving Repr, DecidableEq

/-! ### The `ProvideRandomness` handler (`program/src/provide_randomness.rs`)

This file manipulates its queue as a map from the 32-byte input id to an
item carrying the callback description (`oracle_queue.items.get`/`remove`);
the embedding uses an association list with the same get/remove semantics.
Account loading and PDA validation are elided; the embedding starts at the
proof verification, which is where the claims about this handler live. -/

/-- A callback account meta as used by `process_provide_randomness`. -/
structure CbMeta where
  pubkey : List Nat
  is_signer : Bool
  is_writable : Bool
deriving Repr, DecidableEq

/-- A queue item as used by `process_provide_randomness` (the `slot` field
is written by the request handler; note `process_provide_randomness` never
reads it). -/
structure MapQueueItem where
  slot : Nat
  callback_program_id : List Nat
  callback_discriminator : List Nat
  callback_accounts_meta : List CbMeta
  callback_args : List Nat
deriving Repr, DecidableEq

/-- The `ProvideRandomness` instruction payload (`api/src/instruction.rs`):
input id, compressed output, the two compressed commitments, the scalar. -/
structure ProvideRandomnessArgs where
  input : List Nat
  output : List Nat
  commitment_base_compressed : List Nat
  commitment_hash_compressed : List Nat
  s : List Nat
deriving Repr, DecidableEq

/-- Map lookup (`items.get(&input)`). -/
def mapQueueGet (q : List (List Nat × MapQueueItem)) (k : List Nat) :
    Option MapQueueItem :=
  (q.find? (fun e => e.1 == k)).map (fun e => e.2)

/-- Map removal (`items.remove(&input)`). -/
def mapQueueRemove (q : List (List Nat × MapQueueItem)) (k : List Nat) :
    List (List Nat × MapQueueItem) :=
  q.filter (fun e => !(e.1 == k))

/-- `process_provide_randomness`, from the proof verification on: verify
the VRF proof against the oracle's registered key (`InvalidProof` on
failure), look up the item by `args.input` (`RandomnessRequestNotFound` if
absent), remove it, reject callback metas containing the oracle signer
(`InvalidCallbackAccounts`), and build the CPI data
`callback_discriminator ‖ output ‖ callback_args`. Returns the updated
queue, the removed item, and the CPI instruction data. No comparison of
the current slot with any slot stored in the item occurs anywhere. -/
def process_provide_randomness (signerKey vrfPubkey : List Nat)
    (args : ProvideRandomnessArgs) (queue : List (List Nat × MapQueueItem)) :
    Except PErr (List (List Nat × MapQueueItem) × MapQueueItem × List Nat) :=
  if onchainVerifyVrf vrfPubkey args.input args.output
      args.commitment_base_compressed args.commitment_hash_compressed args.s = false then
    .error .InvalidProof
  else
    match mapQueueGet queue args.input with
    | none => .error .RandomnessRequestNotFound
    | some item =>
      let queue1 := mapQueueRemove queue args.input
      if item.callback_accounts_meta.any (fun a => a.pubkey == signerKey) then
        .error .InvalidCallbackAccounts
      else
        let callbackData :=
          item.callback_discriminator ++ args.output ++ item.callback_args
        .ok (queue1, item, callbackData)

/-! Concrete fulfillment scenario: a registered VRF key equal to the
ristretto identity encoding (all zeros) admits the all-zero proof, for
which `verify_vrf` holds; this drives the handler to its success path with
minimal computation. -/

/-- A concrete oracle signer key. -/
def cOracleKey : List Nat := List.replicate 32 7

/-- A concrete request id. -/
def cReqId : List Nat := List.replicate 32 1

/-- The all-zero `ProvideRandomness` arguments for `cReqId`: zero output,
zero commitments, zero scalar — a valid proof under the zero public key. -/
def cArgs : ProvideRandomnessArgs :=
  ⟨cReqId, List.replicate 32 0, List.replicate 32 0, List.replicate 32 0, List.replicate 32 0⟩

/-- A concrete queue item for `cReqId`, parametrized by its stored slot. -/
def cItem (slotVal : Nat) : MapQueueItem :=
  ⟨slotVal, List.replicate 32 2, [1, 2, 3, 4], [], [9, 9]⟩

example : onchainVerifyVrf (List.replicate 32 0) cArgs.input cArgs.output
    cArgs.commitment_base_compressed cArgs.commitment_hash_compressed cArgs.s = true := by
  decide

/-- **C4.** `process_provide_randomness` performs no slot comparison: for
*every* slot stored in the request item — in particular the very slot in
which fulfillment happens — the handler succeeds, removes the request and
builds the callback, rather than failing with
`OracleMustProvideInDifferentSlot` (a variant no source file even
defines). -/
theorem c4_same_slot_fulfillment_succeeds (slotVal : Nat) :
    process_provide_randomness cOracleKey (List.replicate 32 0) cArgs
        [(cReqId, cItem slotVal)] =
      .ok ([], cItem slotVal, [1, 2, 3, 4] ++ List.replicate 32 0 ++ [9, 9]) := by
  have hv : onchainVerifyVrf (List.replicate 32 0) cArgs.input cArgs.output
      cArgs.commitment_base_compressed cArgs.commitment_hash_compressed cArgs.s = true := by
    decide
  unfold process_provide_randomness
  rw [hv]
  simp [mapQueueGet, mapQueueRemove, List.find?, cItem, cArgs, cReqId, cOracleKey]

/-- **C3, counterexample.** In a successful fulfillment the CPI data built
by the handler is `discriminator ‖ output ‖ args` with the raw 32-byte
compressed output, which differs from the claimed
`discriminator ‖ SHA-256(output) ‖ args`. -/
theorem c3_counterexample :
    (process_provide_randomness cOracleKey (List.replicate 32 0) cArgs
        [(cReqId, cItem 5)]).map (fun r => r.2.2) =
      .ok ([1, 2, 3, 4] ++ List.replicate 32 0 ++ [9, 9]) ∧
    ([1, 2, 3, 4] ++ List.replicate 32 0 ++ [9, 9] : List Nat) ≠
      [1, 2, 3, 4] ++ sha256 (List.replicate 32 0) ++ [9, 9] :=
  ⟨by decide, by decide⟩

/-- **C3, amended.** Whenever `process_provide_randomness` succeeds, the
instruction data of the CPI into the callback program equals the stored
callback discriminator, followed by the 32 bytes of the compressed VRF
output itself (not its SHA-256 hash), followed by the stored callback
args. -/
theorem c3_callback_data_is_raw_output (signerKey vrfPubkey : List Nat)
    (args : ProvideRandomnessArgs) (queue q1 : List (List Nat × MapQueueItem))
    (item : MapQueueItem) (data : List Nat)
    (h : process_provide_randomness signerKey vrfPubkey args queue = .ok (q1, item, data)) :
    data = item.callback_discriminator ++ args.output ++ item.callback_args := by
  unfold process_provide_randomness at h
  split at h
  · cases h
  · rcases hq : mapQueueGet queue args.input with _ | it
    · rw [hq] at h
      cases h
    · rw [hq] at h
      dsimp only at h
      by_cases ha : it.callback_accounts_meta.any (fun a => a.pubkey == signerKey) = true
      · rw [if_pos ha] at h
        cases h
      · rw [if_neg ha] at h
        simp only [Except.ok.injEq, Prod.mk.injEq] at h
        obtain ⟨-, hitem, hdata⟩ := h
        subst hitem
        exact hdata.symm

/-- **C3, witness.** The amended statement evaluated on the concrete
fulfillment scenario. -/
theorem c3_witness :
    (cItem 5).callback_discriminator ++ cArgs.output ++ (cItem 5).callback_args =
      [1, 2, 3, 4] ++ List.replicate 32 0 ++ [9, 9] ∧
    [1, 2, 3, 4] ++ List.replicate 32 0 ++ [9, 9] =
      (cItem 5).callback_discriminator ++ cArgs.output ++ (cItem 5).callback_args :=
  ⟨by decide,
    (c3_callback_data_is_raw_output cOracleKey (List.replicate 32 0) cArgs
      [(cReqId, cItem 5)] [] (cItem 5) ([1, 2, 3, 4] ++ List.replicate 32 0 ++ [9, 9])
      (by decide)).symm⟩

/-! ### Byte-addressed account memory

The queue engine (`api/src/state/queue.rs`) works over the mutable account
byte slice (after the 8-byte discriminator). `Mem` models it as a length
plus a byte function; Solana account data never exceeds 10 MiB
(10485760 bytes), which the reachability relations below record at account
creation. -/

structure Mem where
  len : Nat
  data : Nat → Nat

/-- Read `n` bytes starting at `off` (callers bounds-check, as the Rust
slice indexing does). -/
def Mem.read (m : Mem) (off n : Nat) : List Nat :=
  (List.range n).map (fun i => m.data (off + i))

/-- Overwrite the bytes at `off ..` with `bs` (`copy_from_slice`). -/
def Mem.writeBytes (m : Mem) (off : Nat) (bs : List Nat) : Mem :=
  ⟨m.len, fun i => if off ≤ i ∧ i < off + bs.length then bs.getD (i - off) 0 else m.data i⟩

/-- A zeroed account body of `n` bytes (fresh PDA data). -/
def zeroMem (n : Nat) : Mem := ⟨n, fun _ => 0⟩

theorem Mem.read_length (m : Mem) (off n : Nat) : (m.read off n).length = n := by
  simp [Mem.read]

theorem Mem.len_writeBytes (m : Mem) (off : Nat) (bs : List Nat) :
    (m.writeBytes off bs).len = m.len := rfl

theorem Mem.data_writeBytes_inside (m : Mem) (off : Nat) (bs : List Nat) (i : Nat)
    (h1 : off ≤ i) (h2 : i < off + bs.length) :
    (m.writeBytes off bs).data i = bs.getD (i - off) 0 := by
  simp [Mem.writeBytes, h1, h2]

theorem Mem.data_writeBytes_outside (m : Mem) (off : Nat) (bs : List Nat) (i : Nat)
    (h : i < off ∨ off + bs.length ≤ i) :
    (m.writeBytes off bs).data i = m.data i := by
  rcases h with h | h <;> simp [Mem.writeBytes] <;> omega

theorem Mem.read_writeBytes_self (m : Mem) (off : Nat) (bs : List Nat) :
    (m.writeBytes off bs).read off bs.length = bs := by
  apply List.ext_getElem
  · simp [Mem.read]
  · intro i h1 h2
    simp only [Mem.read, List.getElem_map, List.getElem_range]
    rw [Mem.data_writeBytes_inside]
    · simp at h1
      rw [Nat.add_sub_cancel_left]
      exact List.getD_eq_getElem bs 0 (by simpa [Mem.read] using h2)
    · omega
    · simp at h1
      omega

theorem Mem.read_writeBytes_disjoint (m : Mem) (off : Nat) (bs : List Nat) (q n : Nat)
    (h : q + n ≤ off ∨ off + bs.length ≤ q) :
    (m.writeBytes off bs).read q n = m.read q n := by
  unfold Mem.read
  apply List.map_congr_left
  intro i hi
  simp only [List.mem_range] at hi
  exact Mem.data_writeBytes_outside m off bs (q + i) (by omega)

/-! ### The packed `QueueItem` (`api/src/state/queue.rs`)

`#[repr(C)]` layout: `slot: u64` at 0, `id: [u8;32]` at 8,
`callback_program_id: [u8;32]` at 40, three `u32` offsets at 72/76/80,
three `u16` lengths at 84/86/88, `priority_request: u8` at 90, `used: u8`
at 91, 4 padding bytes; 96 bytes total, alignment 8. -/

structure QueueItem where
  slot : Nat
  id : List Nat
  callback_program_id : List Nat
  callback_discriminator_offset : Nat
  metas_offset : Nat
  args_offset : Nat
  callback_discriminator_len : Nat
  metas_len : Nat
  args_len : Nat
  priority_request : Nat
  used : Nat
deriving Repr, DecidableEq

/-- The byte footprint of an item's variable payload, as the traversal
computes it (`disc_len + metas_len * size_of::<CompactAccountMeta>() +
args_len`, with 33-byte metas). -/
def varLen (it : QueueItem) : Nat :=
  it.callback_discriminator_len + it.metas_len * 33 + it.args_len

/-- `write_item_unaligned`: the 96 bytes of a `QueueItem` value. -/
def serItem (it : QueueItem) : List Nat :=
  natLe 8 it.slot ++ it.id ++ it.callback_program_id ++
  natLe 4 it.callback_discriminator_offset ++ natLe 4 it.metas_offset ++
  natLe 4 it.args_offset ++ natLe 2 it.callback_discriminator_len ++
  natLe 2 it.metas_len ++ natLe 2 it.args_len ++
  [it.priority_request % 256, it.used % 256] ++ [0, 0, 0, 0]

/-- `read_item_unaligned`: parse 96 bytes as a `QueueItem`. -/
def parseItem (bs : List Nat) : QueueItem :=
  ⟨leNat (bs.take 8), (bs.drop 8).take 32, (bs.drop 40).take 32,
   leNat ((bs.drop 72).take 4), leNat ((bs.drop 76).take 4), leNat ((bs.drop 80).take 4),
   leNat ((bs.drop 84).take 2), leNat ((bs.drop 86).take 2), leNat ((bs.drop 88).take 2),
   bs.getD 90 0, bs.getD 91 0⟩

/-- The field bounds under which a `QueueItem` value is exactly
representable in its 96 bytes. -/
structure WFitem (it : QueueItem) : Prop where
  slotLt : it.slot < 2 ^ 64
  idLen : it.id.length = 32
  cpidLen : it.callback_program_id.length = 32
  cdoLt : it.callback_discriminator_offset < 2 ^ 32
  moLt : it.metas_offset < 2 ^ 32
  aoLt : it.args_offset < 2 ^ 32
  cdlLt : it.callback_discriminator_len < 2 ^ 16
  mlLt : it.metas_len < 2 ^ 16
  alLt : it.args_len < 2 ^ 16
  prioLt : it.priority_request < 256
  usedLt : it.used < 256

theorem serItem_length (it : QueueItem) (h1 : it.id.length = 32)
    (h2 : it.callback_program_id.length = 32) : (serItem it).length = 96 := by
  simp [serItem, natLe_length, h1, h2]

theorem take_append_len {A B : List Nat} {k : Nat} (h : A.length = k) :
    (A ++ B).take k = A := by
  subst h
  simp

theorem drop_append_len {A B : List Nat} {k : Nat} (h : A.length = k) :
    (A ++ B).drop k = B := by
  subst h
  simp

theorem drop_add_eq (l : List Nat) (m n : Nat) : l.drop (m + n) = (l.drop m).drop n := by
  rw [List.drop_drop, Nat.add_comm]

theorem parse_serItem {it : QueueItem} (h : WFitem it) : parseItem (serItem it) = it := by
  obtain ⟨h1, h2, h3, h4, h5, h6, h7, h8, h9, h10, h11⟩ := h
  have l8 : (natLe 8 it.slot).length = 8 := natLe_length ..
  have d8 : (serItem it).drop 8 = it.id ++ (it.callback_program_id ++
      (natLe 4 it.callback_discriminator_offset ++ (natLe 4 it.metas_offset ++
      (natLe 4 it.args_offset ++ (natLe 2 it.callback_discriminator_len ++
      (natLe 2 it.metas_len ++ (natLe 2 it.args_len ++
      ([it.priority_request % 256, it.used % 256] ++ [0, 0, 0, 0])))))))) := by
    unfold serItem
    simp only [List.append_assoc]
    exact drop_append_len l8
  have d40 : (serItem it).drop 40 = it.callback_program_id ++
      (natLe 4 it.callback_discriminator_offset ++ (natLe 4 it.metas_offset ++
      (natLe 4 it.args_offset ++ (natLe 2 it.callback_discriminator_len ++
      (natLe 2 it.metas_len ++ (natLe 2 it.args_len ++
      ([it.priority_request % 256, it.used % 256] ++ [0, 0, 0, 0]))))))) := by
    rw [show (40 : Nat) = 8 + 32 from rfl, drop_add_eq, d8, drop_append_len h2]
  have d72 : (serItem it).drop 72 = natLe 4 it.callback_discriminator_offset ++
      (natLe 4 it.metas_offset ++ (natLe 4 it.args_offset ++
      (natLe 2 it.callback_discriminator_len ++ (natLe 2 it.metas_len ++
      (natLe 2 it.args_len ++
      ([it.priority_request % 256, it.used % 256] ++ [0, 0, 0, 0])))))) := by
    rw [show (72 : Nat) = 40 + 32 from rfl, drop_add_eq, d40, drop_append_len h3]
  have d76 : (serItem it).drop 76 = natLe 4 it.metas_offset ++ (natLe 4 it.args_offset ++
      (natLe 2 it.callback_discriminator_len ++ (natLe 2 it.metas_len ++
      (natLe 2 it.args_len ++
      ([it.priority_request % 256, it.used % 256] ++ [0, 0, 0, 0]))))) := by
    rw [show (76 : Nat) = 72 + 4 from rfl, drop_add_eq, d72, drop_append_len (natLe_length ..)]
  have d80 : (serItem it).drop 80 = natLe 4 it.args_offset ++
      (natLe 2 it.callback_discriminator_len ++ (natLe 2 it.metas_len ++
      (natLe 2 it.args_len ++ ([it.priority_request % 256, it.used % 256] ++ [0, 0, 0, 0])))) := by
    rw [show (80 : Nat) = 76 + 4 from rfl, drop_add_eq, d76, drop_append_len (natLe_length ..)]
  have d84 : (serItem it).drop 84 = natLe 2 it.callback_discriminator_len ++
      (natLe 2 it.metas_len ++ (natLe 2 it.args_len ++
      ([it.priority_request % 256, it.used % 256] ++ [0, 0, 0, 0]))) := by
    rw [show (84 : Nat) = 80 + 4 from rfl, drop_add_eq, d80, drop_append_len (natLe_length ..)]
  have d86 : (serItem it).drop 86 = natLe 2 it.metas_len ++ (natLe 2 it.args_len ++
      ([it.priority_request % 256, it.used % 256] ++ [0, 0, 0, 0])) := by
    rw [show (86 : Nat) = 84 + 2 from rfl, drop_add_eq, d84, drop_append_len (natLe_length ..)]
  have d88 : (serItem it).drop 88 = natLe 2 it.args_len ++
      ([it.priority_request % 256, it.used % 256] ++ [0, 0, 0, 0]) := by
    rw [show (88 : Nat) = 86 + 2 from rfl, drop_add_eq, d86, drop_append_len (natLe_length ..)]
  have d90 : (serItem it).drop 90 =
      it.priority_request % 256 :: it.used % 256 :: [0, 0, 0, 0] := by
    rw [show (90 : Nat) = 88 + 2 from rfl, drop_add_eq, d88, drop_append_len (natLe_length ..)]
    rfl
  have g90 : (serItem it).getD 90 0 = it.priority_request := by
    have he := List.getElem?_drop (serItem it) 90 0
    rw [Nat.add_zero, d90] at he
    rw [List.getD_eq_getElem?_getD, ← he]
    simpa using Nat.mod_eq_of_lt h10
  have g91 : (serItem it).getD 91 0 = it.used := by
    have d91 : (serItem it).drop 91 = it.used % 256 :: [0, 0, 0, 0] := by
      rw [show (91 : Nat) = 90 + 1 from rfl, drop_add_eq, d90]
      rfl
    have he := List.getElem?_drop (serItem it) 91 0
    rw [Nat.add_zero, d91] at he
    rw [List.getD_eq_getElem?_getD, ← he]
    simpa using Nat.mod_eq_of_lt h11
  unfold parseItem
  rw [d8, d40, d72, d76, d80, d84, d86, d88, g90, g91]
  rw [take_append_len h2, take_append_len h3,
      take_append_len (natLe_length ..), take_append_len (natLe_length ..),
      take_append_len (natLe_length ..), take_append_len (natLe_length ..),
      take_append_len (natLe_length ..), take_append_len (natLe_length ..)]
  have tk8 : (serItem it).take 8 = natLe 8 it.slot := by
    unfold serItem
    simp only [List.append_assoc]
    exact take_append_len l8
  rw [tk8]
  rw [leNat_natLe _ _ h1, leNat_natLe _ _ h4, leNat_natLe _ _ h5, leNat_natLe _ _ h6,
      leNat_natLe _ _ h7, leNat_natLe _ _ h8, leNat_natLe _ _ h9]

/-! ### The queue view (`QueueAccount` in `api/src/state/queue.rs`)

The header aliases the first 12 account bytes (`item_count: u32`,
`cursor: u32`, `index: u8`, 3 bytes padding); the view keeps it as fields
next to the full byte region. All traversals share one loop shape,
reflected by `walk`; the per-operation functions mirror their sources and
are proved equal to filters/lookups over `walk`. The Rust `while` loops
terminate because the cursor advances by at least the 96-byte item size;
the fuel `mem.len + 1` strictly exceeds the possible number of
iterations. -/

/-- `align_up`: round `x` up to a multiple of `a` (the Rust bit trick for
power-of-two `a`). -/
def alignUp (x a : Nat) : Nat := (x + a - 1) / a * a

/-- `items_start()`: `size_of::<Queue>()` (12) aligned up to
`align_of::<QueueItem>()` (8). -/
def itemsStart : Nat := alignUp 12 8

theorem le_alignUp (x : Nat) : x ≤ alignUp x 8 := by
  have h := Nat.div_add_mod (x + 8 - 1) 8
  have h2 : (x + 8 - 1) % 8 < 8 := Nat.mod_lt _ (by omega)
  unfold alignUp
  omega

theorem alignUp_le (x : Nat) : alignUp x 8 ≤ x + 7 := by
  have h := Nat.div_add_mod (x + 8 - 1) 8
  unfold alignUp
  omega

theorem alignUp_eq_of_aligned (x : Nat) (h : x % 8 = 0) : alignUp x 8 = x := by
  unfold alignUp
  omega

/-- The queue view: header fields plus the account bytes. -/
structure QState where
  itemCount : Nat
  cursor : Nat
  index : Nat
  mem : Mem

/-- `QueueAccount::load`: bind the header off the first bytes; a fresh
account (`cursor == 0`) gets its cursor initialised to the items start. -/
def load (m : Mem) : Except PErr QState :=
  if m.len < 12 then .error .InvalidAccountData
  else
    let ic := leNat (m.read 0 4)
    let cur := leNat (m.read 4 4)
    .ok ⟨ic, if cur = 0 then itemsStart else cur, m.data 8, m⟩

/-- The common traversal of all queue loops: from `c`, parse an item,
advance by its aligned footprint, stop past `endv` (or on the
zero-advance guard). Collects every parsed item with its position. -/
def walk : Nat → Mem → Nat → Nat → List (Nat × QueueItem)
  | 0, _, _, _ => []
  | fuel + 1, m, c, endv =>
    if c + 96 ≤ endv then
      let it := parseItem (m.read c 96)
      let next := alignUp (c + 96 + varLen it) 8
      (c, it) :: (if next ≤ c then [] else walk fuel m next endv)
    else []

/-- The final cursor position of the traversal. -/
def walkEnd : Nat → Mem → Nat → Nat → Nat
  | 0, _, c, _ => c
  | fuel + 1, m, c, endv =>
    if c + 96 ≤ endv then
      let it := parseItem (m.read c 96)
      let next := alignUp (c + 96 + varLen it) 8
      if next ≤ c then c else walkEnd fuel m next endv
    else c

/-- `iter_items` loop body: yield the `used == 1` items in order. -/
def iterItemsAux : Nat → Mem → Nat → Nat → List QueueItem
  | 0, _, _, _ => []
  | fuel + 1, m, c, endv =>
    if c + 96 ≤ endv then
      let it := parseItem (m.read c 96)
      let next := alignUp (c + 96 + varLen it) 8
      (if it.used = 1 then [it] else []) ++
        (if next ≤ c then [] else iterItemsAux fuel m next endv)
    else []

/-- `QueueAccount::iter_items`. -/
def iter_items (s : QState) : List QueueItem :=
  iterItemsAux (s.mem.len + 1) s.mem itemsStart (min s.mem.len s.cursor)

/-- `get_item_by_index` loop body (`index` counts remaining used items). -/
def getItemAux : Nat → Mem → Nat → Nat → Nat → Option QueueItem
  | 0, _, _, _, _ => none
  | fuel + 1, m, c, endv, index =>
    if c + 96 ≤ endv then
      let it := parseItem (m.read c 96)
      let next := alignUp (c + 96 + varLen it) 8
      if it.used = 1 ∧ index = 0 then some it
      else
        if next ≤ c then none
        else getItemAux fuel m next endv (if it.used = 1 then index - 1 else index)
    else none

/-- `QueueAccount::get_item_by_index`. -/
def get_item_by_index (s : QState) (index : Nat) : Option QueueItem :=
  getItemAux (s.mem.len + 1) s.mem itemsStart (min s.mem.len s.cursor) index

/-- `remove_item` loop body: at the index-th used item, clear `used` and
write the item back in place. -/
def removeItemAux : Nat → Mem → Nat → Nat → Nat → Option (Mem × QueueItem)
  | 0, _, _, _, _ => none
  | fuel + 1, m, c, endv, index =>
    if c + 96 ≤ endv then
      let it := parseItem (m.read c 96)
      let next := alignUp (c + 96 + varLen it) 8
      if it.used = 1 ∧ index = 0 then
        let it1 := { it with used := 0 }
        some (m.writeBytes c (serItem it1), it1)
      else
        if next ≤ c then none
        else removeItemAux fuel m next endv (if it.used = 1 then index - 1 else index)
    else none

/-- `QueueAccount::remove_item`: `InvalidQueueIndex` when no index-th used
item exists; otherwise decrement `item_count` (saturating). -/
def remove_item (s : QState) (index : Nat) : Except PErr (QState × QueueItem) :=
  match removeItemAux (s.mem.len + 1) s.mem itemsStart (min s.mem.len s.cursor) index with
  | none => .error .InvalidQueueIndex
  | some (m1, it) => .ok ({ s with mem := m1, itemCount := s.itemCount - 1 }, it)

/-- `CompactAccountMeta`: 32-byte pubkey plus the `is_writable` byte. -/
structure CMeta where
  pubkey : List Nat
  is_writable : Nat
deriving Repr, DecidableEq

/-- The 33 bytes of a `CompactAccountMeta`. -/
def serMeta (c : CMeta) : List Nat := c.pubkey ++ [c.is_writable % 256]

/-- `QueueAccount::add_item`: bound-check metas/args counts, align the
cursor (zero-filling the gap), reserve the 96-byte item slot, write the
discriminator, metas and args payloads, then store the completed item
(offsets and `u16`-cast lengths filled in, `used = 1`) into the reserved
slot; `item_count` is incremented (saturating) and the prior count is
returned as the logical index. Failure leaves the state unchanged (the
on-chain transaction reverts). -/
def add_item (s : QState) (baseItem : QueueItem) (disc : List Nat)
    (metas : List CMeta) (args : List Nat) : Except PErr (QState × Nat) :=
  if 20 < metas.length ∨ 512 < args.length then .error .ArgumentSizeTooLarge
  else
    let aligned := alignUp s.cursor 8
    if aligned ≠ s.cursor ∧ s.mem.len < aligned then .error .AccountDataTooSmall
    else
      let mem0 := if aligned ≠ s.cursor
        then s.mem.writeBytes s.cursor (List.replicate (aligned - s.cursor) 0)
        else s.mem
      let itemPos := aligned
      if s.mem.len < itemPos + 96 then .error .AccountDataTooSmall
      else
        let discOff := itemPos + 96
        if s.mem.len < discOff + disc.length then .error .AccountDataTooSmall
        else
          let mem1 := mem0.writeBytes discOff disc
          let metasBytes := metas.flatMap serMeta
          let metasOff := discOff + disc.length
          if s.mem.len < metasOff + metasBytes.length then .error .AccountDataTooSmall
          else
            let mem2 := mem1.writeBytes metasOff metasBytes
            let argsOff := metasOff + metasBytes.length
            if s.mem.len < argsOff + args.length then .error .AccountDataTooSmall
            else
              let mem3 := mem2.writeBytes argsOff args
              let item := { baseItem with
                callback_discriminator_offset := discOff % 2 ^ 32,
                callback_discriminator_len := disc.length % 2 ^ 16,
                metas_offset := metasOff % 2 ^ 32,
                metas_len := metas.length % 2 ^ 16,
                args_offset := argsOff % 2 ^ 32,
                args_len := args.length % 2 ^ 16,
                used := 1 }
              let mem4 := mem3.writeBytes itemPos (serItem item)
              let s1 : QState :=
                { itemCount := min (s.itemCount + 1) (2 ^ 32 - 1),
                  cursor := (argsOff + args.length) % 2 ^ 32,
                  index := s.index, mem := mem4 }
              .ok (s1, s.itemCount)

/-! ### Walk lemmas

The zero-advance guard in the loops is dead code (`next` is at least
`c + 96`); each operation is a filter/lookup over `walk`; and `walk` is
stable under writes at or beyond the walked region. -/

theorem next_gt (c v : Nat) : c < alignUp (c + 96 + v) 8 := by
  have h := le_alignUp (c + 96 + v)
  omega

/-- The used items of a walk, with positions. -/
def usedEntries (W : List (Nat × QueueItem)) : List (Nat × QueueItem) :=
  W.filter (fun pi => pi.2.used == 1)

/-- The number of used items of a walk. -/
def usedCount (W : List (Nat × QueueItem)) : Nat := (usedEntries W).length

theorem iterItemsAux_eq_walk (fuel : Nat) (m : Mem) (endv : Nat) : ∀ c,
    iterItemsAux fuel m c endv = ((walk fuel m c endv).filter
      (fun pi => pi.2.used == 1)).map (fun pi => pi.2) := by
  induction fuel with
  | zero => intro c; rfl
  | succ fuel ih =>
    intro c
    unfold iterItemsAux walk
    by_cases h : c + 96 ≤ endv
    · have hnb : ¬(alignUp (c + 96 + varLen (parseItem (m.read c 96))) 8 ≤ c) := by
        have := next_gt c (varLen (parseItem (m.read c 96)))
        omega
      simp only [if_pos h, if_neg hnb, ih]
      by_cases hu : (parseItem (m.read c 96)).used = 1 <;>
        simp [List.filter_cons, hu]
    · simp [h]

theorem getItemAux_eq_walk (fuel : Nat) (m : Mem) (endv : Nat) : ∀ c index,
    getItemAux fuel m c endv index =
      (((walk fuel m c endv).filter (fun pi => pi.2.used == 1)).map
        (fun pi => pi.2))[index]? := by
  induction fuel with
  | zero => intro c index; rfl
  | succ fuel ih =>
    intro c index
    unfold getItemAux walk
    by_cases h : c + 96 ≤ endv
    · have hnb : ¬(alignUp (c + 96 + varLen (parseItem (m.read c 96))) 8 ≤ c) := by
        have := next_gt c (varLen (parseItem (m.read c 96)))
        omega
      simp only [if_pos h, if_neg hnb, ih]
      by_cases hu : (parseItem (m.read c 96)).used = 1
      · rcases index with _ | j <;> simp [List.filter_cons, hu]
      · simp [List.filter_cons, hu]
    · simp [h]

theorem removeItemAux_eq_walk (fuel : Nat) (m : Mem) (endv : Nat) : ∀ c index,
    removeItemAux fuel m c endv index =
      match ((walk fuel m c endv).filter (fun pi => pi.2.used == 1))[index]? with
      | none => none
      | some pi => some (m.writeBytes pi.1 (serItem { pi.2 with used := 0 }),
                         { pi.2 with used := 0 }) := by
  induction fuel with
  | zero => intro c index; rfl
  | succ fuel ih =>
    intro c index
    unfold removeItemAux walk
    by_cases h : c + 96 ≤ endv
    · have hnb : ¬(alignUp (c + 96 + varLen (parseItem (m.read c 96))) 8 ≤ c) := by
        have := next_gt c (varLen (parseItem (m.read c 96)))
        omega
      simp only [if_pos h, if_neg hnb, ih]
      by_cases hu : (parseItem (m.read c 96)).used = 1
      · rcases index with _ | j <;> simp [List.filter_cons, hu]
      · simp [List.filter_cons, hu]
    · simp [h]

theorem walk_pos_ge (fuel : Nat) (m : Mem) (endv : Nat) : ∀ c pi,
    pi ∈ walk fuel m c endv → c ≤ pi.1 ∧ pi.1 + 96 ≤ endv := by
  induction fuel with
  | zero => intro c pi h; cases h
  | succ fuel ih =>
    intro c pi h
    unfold walk at h
    by_cases hc : c + 96 ≤ endv
    · rw [if_pos hc] at h
      rcases List.mem_cons.mp h with h | h
      · subst h; omega
      · have hnb : ¬(alignUp (c + 96 + varLen (parseItem (m.read c 96))) 8 ≤ c) := by
          have := next_gt c (varLen (parseItem (m.read c 96)))
          omega
        rw [if_neg hnb] at h
        have := ih _ _ h
        have h2 := le_alignUp (c + 96 + varLen (parseItem (m.read c 96)))
        omega
    · rw [if_neg hc] at h; cases h

theorem walk_length_bound (fuel : Nat) (m : Mem) (endv : Nat) : ∀ c,
    96 * (walk fuel m c endv).length ≤ endv + 96 - c := by
  induction fuel with
  | zero => intro c; simp [walk]
  | succ fuel ih =>
    intro c
    unfold walk
    dsimp only
    by_cases hc : c + 96 ≤ endv
    · have hnb : ¬(alignUp (c + 96 + varLen (parseItem (m.read c 96))) 8 ≤ c) := by
        have := next_gt c (varLen (parseItem (m.read c 96)))
        omega
      rw [if_pos hc, if_neg hnb]
      have := ih (alignUp (c + 96 + varLen (parseItem (m.read c 96))) 8)
      have h2 := le_alignUp (c + 96 + varLen (parseItem (m.read c 96)))
      simp only [List.length_cons]
      omega
    · rw [if_neg hc]
      simp

theorem walk_stops (fuel : Nat) (m : Mem) (endv : Nat) : ∀ c,
    (walk fuel m c endv).length < fuel →
    endv < walkEnd fuel m c endv + 96 := by
  induction fuel with
  | zero => intro c h; omega
  | succ fuel ih =>
    intro c h
    unfold walk at h
    unfold walkEnd
    dsimp only at h ⊢
    by_cases hc : c + 96 ≤ endv
    · have hnb : ¬(alignUp (c + 96 + varLen (parseItem (m.read c 96))) 8 ≤ c) := by
        have := next_gt c (varLen (parseItem (m.read c 96)))
        omega
      rw [if_pos hc] at h ⊢
      rw [if_neg hnb] at h ⊢
      exact ih _ (by simpa using h)
    · rw [if_neg hc]
      omega

theorem walk_congr (fuel : Nat) (m m1 : Mem) (endv : Nat) : ∀ c,
    (∀ q, c ≤ q → q + 96 ≤ endv → m1.read q 96 = m.read q 96) →
    walk fuel m1 c endv = walk fuel m c endv := by
  induction fuel with
  | zero => intro c _; rfl
  | succ fuel ih =>
    intro c hagree
    unfold walk
    dsimp only
    by_cases hc : c + 96 ≤ endv
    · rw [if_pos hc, if_pos hc, hagree c (Nat.le_refl c) hc]
      have hnext := next_gt c (varLen (parseItem (m.read c 96)))
      congr 1
      rw [if_neg (by omega), if_neg (by omega)]
      exact ih _ (fun q hq hq2 => hagree q (by omega) hq2)
    · rw [if_neg hc, if_neg hc]

/-! ### Byte-range invariants -/

theorem leNat_lt (bs : List Nat) : leNat bs < 256 ^ bs.length := by
  induction bs with
  | nil => simp [leNat]
  | cons b bs ih =>
    have hb : b % 256 < 256 := Nat.mod_lt _ (by omega)
    simp only [leNat, List.length_cons, pow_succ]
    omega

theorem natLe_bytes_lt (w n : Nat) : ∀ b ∈ natLe w n, b < 256 := by
  induction w generalizing n with
  | zero => intro b h; cases h
  | succ w ih =>
    intro b h
    rcases List.mem_cons.mp h with h | h
    · subst h; exact Nat.mod_lt _ (by omega)
    · exact ih _ _ h

theorem read_bytes_lt (m : Mem) (off n : Nat) (hm : ∀ i, m.data i < 256) :
    ∀ b ∈ m.read off n, b < 256 := by
  intro b h
  simp only [Mem.read, List.mem_map, List.mem_range] at h
  obtain ⟨i, -, rfl⟩ := h
  exact hm _

theorem writeBytes_bytes_lt (m : Mem) (off : Nat) (bs : List Nat)
    (hm : ∀ i, m.data i < 256) (hb : ∀ b ∈ bs, b < 256) :
    ∀ i, (m.writeBytes off bs).data i < 256 := by
  intro i
  unfold Mem.writeBytes
  dsimp only
  split
  · rename_i h
    rcases Nat.lt_or_ge (i - off) bs.length with h2 | h2
    · rw [List.getD_eq_getElem bs 0 h2]
      exact hb _ (List.getElem_mem h2)
    · rw [List.getD_eq_default bs 0 h2]
      omega
  · exact hm i

theorem serItem_bytes_lt (it : QueueItem) (hid : ∀ b ∈ it.id, b < 256)
    (hcp : ∀ b ∈ it.callback_program_id, b < 256) : ∀ b ∈ serItem it, b < 256 := by
  intro b h
  unfold serItem at h
  simp only [List.append_assoc, List.mem_append, List.mem_cons, List.not_mem_nil,
    or_false] at h
  rcases h with h | h | h | h | h | h | h | h | h | h | h | h | h | h <;>
    first
      | exact natLe_bytes_lt _ _ _ h
      | exact hid _ h
      | exact hcp _ h
      | omega
      | (rcases h with h | h <;> omega)

theorem parseItem_wf (bs : List Nat) (hl : bs.length = 96) (hb : ∀ b ∈ bs, b < 256) :
    WFitem (parseItem bs) := by
  have hle : ∀ (k w : Nat), leNat ((bs.drop k).take w) < 256 ^ w := by
    intro k w
    have h := leNat_lt ((bs.drop k).take w)
    have h2 : ((bs.drop k).take w).length ≤ w := by simp
    calc leNat ((bs.drop k).take w) < 256 ^ ((bs.drop k).take w).length := h
    _ ≤ 256 ^ w := Nat.pow_le_pow_right (by omega) h2
  have hget : ∀ k, k < 96 → bs.getD k 0 < 256 := by
    intro k hk
    have h2 : k < bs.length := by omega
    rw [List.getD_eq_getElem bs 0 h2]
    exact hb _ (List.getElem_mem h2)
  unfold parseItem
  refine ⟨?_, ?_, ?_, ?_, ?_, ?_, ?_, ?_, ?_, ?_, ?_⟩
  · have h := leNat_lt (bs.take 8)
    have h2 : (bs.take 8).length = 8 := by simp [hl]
    rw [h2] at h
    exact h
  · simp [hl]
  · simp [hl]
  · exact hle 72 4
  · exact hle 76 4
  · exact hle 80 4
  · exact hle 84 2
  · exact hle 86 2
  · exact hle 88 2
  · exact hget 90 (by omega)
  · exact hget 91 (by omega)

theorem WFitem_unused {it : QueueItem} (h : WFitem it) : WFitem { it with used := 0 } :=
  ⟨h.slotLt, h.idLen, h.cpidLen, h.cdoLt, h.moLt, h.aoLt, h.cdlLt, h.mlLt, h.alLt,
   h.prioLt, by show (0 : Nat) < 256; omega⟩

theorem walkEnd_congr (fuel : Nat) (m m1 : Mem) (endv : Nat) : ∀ c,
    (∀ q, c ≤ q → q + 96 ≤ endv → m1.read q 96 = m.read q 96) →
    walkEnd fuel m1 c endv = walkEnd fuel m c endv := by
  induction fuel with
  | zero => intro c _; rfl
  | succ fuel ih =>
    intro c hagree
    unfold walkEnd
    dsimp only
    by_cases hc : c + 96 ≤ endv
    · rw [if_pos hc, if_pos hc, hagree c (Nat.le_refl c) hc]
      have hnext := next_gt c (varLen (parseItem (m.read c 96)))
      rw [if_neg (by omega), if_neg (by omega)]
      exact ih _ (fun q hq hq2 => hagree q (by omega) hq2)
    · rw [if_neg hc, if_neg hc]

/-! ### Walk under the in-place `used`-flag write (`remove_item`) -/

theorem walk_write_used (fuel : Nat) (m : Mem) (endv cpos : Nat) (it : QueueItem)
    (hWF : WFitem it) : ∀ c, (cpos, it) ∈ walk fuel m c endv →
    walk fuel (m.writeBytes cpos (serItem { it with used := 0 })) c endv =
      (walk fuel m c endv).map
        (fun pi => if pi.1 = cpos then (cpos, { it with used := 0 }) else pi) := by
  have hlen96 : (serItem { it with used := 0 }).length = 96 :=
    serItem_length _ hWF.idLen hWF.cpidLen
  induction fuel with
  | zero => intro c h; cases h
  | succ fuel ih =>
    intro c hmem
    have hcond : c + 96 ≤ endv := by
      by_contra hc
      unfold walk at hmem
      rw [if_neg hc] at hmem
      cases hmem
    have hnb : ¬(alignUp (c + 96 + varLen (parseItem (m.read c 96))) 8 ≤ c) := by
      have := next_gt c (varLen (parseItem (m.read c 96)))
      omega
    unfold walk at hmem
    dsimp only at hmem
    rw [if_pos hcond, if_neg hnb] at hmem
    by_cases hcp2 : c = cpos
    · subst hcp2
      have hhead : parseItem (m.read c 96) = it := by
        rcases List.mem_cons.mp hmem with h | h
        · exact (congrArg Prod.snd h).symm
        · exfalso
          have h1 := (walk_pos_ge fuel m endv _ _ h).1
          have h2 := next_gt c (varLen (parseItem (m.read c 96)))
          omega
      have hparse1 : parseItem ((m.writeBytes c (serItem { it with used := 0 })).read c 96) =
          { it with used := 0 } := by
        have hr := Mem.read_writeBytes_self m c (serItem { it with used := 0 })
        rw [hlen96] at hr
        rw [hr]
        exact parse_serItem (WFitem_unused hWF)
      have hnb1 : ¬(alignUp (c + 96 + varLen it) 8 ≤ c) := by
        rw [hhead] at hnb
        exact hnb
      have hagree : ∀ q, alignUp (c + 96 + varLen it) 8 ≤ q → q + 96 ≤ endv →
          (m.writeBytes c (serItem { it with used := 0 })).read q 96 = m.read q 96 := by
        intro q hq hq2
        apply Mem.read_writeBytes_disjoint
        right
        rw [hlen96]
        have := le_alignUp (c + 96 + varLen it)
        omega
      unfold walk
      dsimp only
      rw [if_pos hcond, if_pos hcond, hparse1, hhead]
      have hvar : varLen { it with used := 0 } = varLen it := rfl
      rw [hvar, if_neg hnb1, if_neg hnb1]
      rw [walk_congr fuel m _ endv _ hagree]
      simp only [List.map_cons, if_pos rfl]
      congr 1
      have hid2 : ∀ pi ∈ walk fuel m (alignUp (c + 96 + varLen it) 8) endv,
          (fun pi => if pi.1 = c then (c, { it with used := 0 }) else pi) pi = pi := by
        intro pi hpi
        have h1 := (walk_pos_ge fuel m endv _ _ hpi).1
        have h2 := next_gt c (varLen it)
        simp only [if_neg (by omega : ¬(pi.1 = c))]
      rw [List.map_congr_left hid2]
      simp
    · have hrest : (cpos, it) ∈ walk fuel m
          (alignUp (c + 96 + varLen (parseItem (m.read c 96))) 8) endv := by
        rcases List.mem_cons.mp hmem with h | h
        · exact absurd (congrArg Prod.fst h).symm hcp2
        · exact h
      have hfar : c + 96 ≤ cpos :=
        le_trans (le_trans (Nat.le_add_right _ _)
            (le_alignUp (c + 96 + varLen (parseItem (m.read c 96)))))
          (walk_pos_ge fuel m endv _ _ hrest).1
      have hparse0 : (m.writeBytes cpos (serItem { it with used := 0 })).read c 96 =
          m.read c 96 := by
        apply Mem.read_writeBytes_disjoint
        left
        omega
      unfold walk
      dsimp only
      rw [if_pos hcond, if_pos hcond, hparse0]
      rw [if_neg hnb, if_neg hnb]
      rw [ih _ hrest]
      simp only [List.map_cons, if_neg hcp2]

theorem walkEnd_write_used (fuel : Nat) (m : Mem) (endv cpos : Nat) (it : QueueItem)
    (hWF : WFitem it) : ∀ c, (cpos, it) ∈ walk fuel m c endv →
    walkEnd fuel (m.writeBytes cpos (serItem { it with used := 0 })) c endv =
      walkEnd fuel m c endv := by
  have hlen96 : (serItem { it with used := 0 }).length = 96 :=
    serItem_length _ hWF.idLen hWF.cpidLen
  induction fuel with
  | zero => intro c h; cases h
  | succ fuel ih =>
    intro c hmem
    have hcond : c + 96 ≤ endv := by
      by_contra hc
      unfold walk at hmem
      rw [if_neg hc] at hmem
      cases hmem
    have hnb : ¬(alignUp (c + 96 + varLen (parseItem (m.read c 96))) 8 ≤ c) := by
      have := next_gt c (varLen (parseItem (m.read c 96)))
      omega
    unfold walk at hmem
    dsimp only at hmem
    rw [if_pos hcond, if_neg hnb] at hmem
    by_cases hcp2 : c = cpos
    · subst hcp2
      have hhead : parseItem (m.read c 96) = it := by
        rcases List.mem_cons.mp hmem with h | h
        · exact (congrArg Prod.snd h).symm
        · exfalso
          have h1 := (walk_pos_ge fuel m endv _ _ h).1
          have h2 := next_gt c (varLen (parseItem (m.read c 96)))
          omega
      have hparse1 : parseItem ((m.writeBytes c (serItem { it with used := 0 })).read c 96) =
          { it with used := 0 } := by
        have hr := Mem.read_writeBytes_self m c (serItem { it with used := 0 })
        rw [hlen96] at hr
        rw [hr]
        exact parse_serItem (WFitem_unused hWF)
      have hnb1 : ¬(alignUp (c + 96 + varLen it) 8 ≤ c) := by
        rw [hhead] at hnb
        exact hnb
      have hagree : ∀ q, alignUp (c + 96 + varLen it) 8 ≤ q → q + 96 ≤ endv →
          (m.writeBytes c (serItem { it with used := 0 })).read q 96 = m.read q 96 := by
        intro q hq hq2
        apply Mem.read_writeBytes_disjoint
        right
        rw [hlen96]
        have := le_alignUp (c + 96 + varLen it)
        omega
      unfold walkEnd
      dsimp only
      rw [if_pos hcond, if_pos hcond, hparse1, hhead]
      have hvar : varLen { it with used := 0 } = varLen it := rfl
      rw [hvar, if_neg hnb1, if_neg hnb1]
      exact walkEnd_congr fuel m _ endv _ hagree
    · have hrest : (cpos, it) ∈ walk fuel m
          (alignUp (c + 96 + varLen (parseItem (m.read c 96))) 8) endv := by
        rcases List.mem_cons.mp hmem with h | h
        · exact absurd (congrArg Prod.fst h).symm hcp2
        · exact h
      have hfar : c + 96 ≤ cpos :=
        le_trans (le_trans (Nat.le_add_right _ _)
            (le_alignUp (c + 96 + varLen (parseItem (m.read c 96)))))
          (walk_pos_ge fuel m endv _ _ hrest).1
      have hparse0 : (m.writeBytes cpos (serItem { it with used := 0 })).read c 96 =
          m.read c 96 := by
        apply Mem.read_writeBytes_disjoint
        left
        omega
      unfold walkEnd
      dsimp only
      rw [if_pos hcond, if_pos hcond, hparse0]
      rw [if_neg hnb, if_neg hnb]
      exact ih _ hrest

/-! ### Walk extension by a freshly appended item (`add_item`) -/

theorem walk_add_extend (m m1 : Mem) (endv endv1 cpos : Nat) (newIt : QueueItem)
    (hagree : ∀ q n, q + n ≤ endv → m1.read q n = m.read q n)
    (hnew : m1.read cpos 96 = serItem newIt)
    (hwf : WFitem newIt)
    (hin : cpos + 96 ≤ endv1)
    (hstop : endv1 ≤ alignUp (cpos + 96 + varLen newIt) 8)
    (hmono : endv ≤ endv1) :
    ∀ fuel c, (walk fuel m c endv).length < fuel →
      walkEnd fuel m c endv = cpos →
      walk fuel m1 c endv1 = walk fuel m c endv ++ [(cpos, newIt)] ∧
      walkEnd fuel m1 c endv1 = alignUp (cpos + 96 + varLen newIt) 8 := by
  intro fuel
  induction fuel with
  | zero => intro c h _; omega
  | succ fuel ih =>
    intro c hlen hend
    by_cases hc : c + 96 ≤ endv
    · -- the old walk still steps here; the new walk steps identically
      have hpe : m1.read c 96 = m.read c 96 := hagree c 96 hc
      have hnb : ¬(alignUp (c + 96 + varLen (parseItem (m.read c 96))) 8 ≤ c) := by
        have := next_gt c (varLen (parseItem (m.read c 96)))
        omega
      have hlen2 : (walk fuel m (alignUp (c + 96 + varLen (parseItem (m.read c 96))) 8)
          endv).length < fuel := by
        unfold walk at hlen
        dsimp only at hlen
        rw [if_pos hc, if_neg hnb] at hlen
        simpa using hlen
      have hend2 : walkEnd fuel m (alignUp (c + 96 + varLen (parseItem (m.read c 96))) 8)
          endv = cpos := by
        unfold walkEnd at hend
        dsimp only at hend
        rw [if_pos hc, if_neg hnb] at hend
        exact hend
      obtain ⟨ihW, ihE⟩ := ih _ hlen2 hend2
      constructor
      · unfold walk
        dsimp only
        rw [if_pos hc, if_pos (by omega : c + 96 ≤ endv1), hpe]
        simp only [if_neg hnb]
        rw [ihW]
        simp
      · unfold walkEnd
        dsimp only
        rw [if_pos (by omega : c + 96 ≤ endv1), hpe]
        simp only [if_neg hnb]
        exact ihE
    · -- the old walk stops here, so `c` is the append position
      have hceq : c = cpos := by
        unfold walkEnd at hend
        dsimp only at hend
        rw [if_neg hc] at hend
        exact hend
      subst hceq
      have hparse : parseItem (m1.read c 96) = newIt := by
        rw [hnew]
        exact parse_serItem hwf
      have hnb : ¬(alignUp (c + 96 + varLen newIt) 8 ≤ c) := by
        have := next_gt c (varLen newIt)
        omega
      have hrest : walk fuel m1 (alignUp (c + 96 + varLen newIt) 8) endv1 = [] := by
        cases fuel with
        | zero => rfl
        | succ fuel =>
          unfold walk
          rw [if_neg (by omega : ¬(alignUp (c + 96 + varLen newIt) 8 + 96 ≤ endv1))]
      have hrestE : walkEnd fuel m1 (alignUp (c + 96 + varLen newIt) 8) endv1 =
          alignUp (c + 96 + varLen newIt) 8 := by
        cases fuel with
        | zero => rfl
        | succ fuel =>
          unfold walkEnd
          rw [if_neg (by omega : ¬(alignUp (c + 96 + varLen newIt) 8 + 96 ≤ endv1))]
      constructor
      · unfold walk
        dsimp only
        rw [if_pos hin, hparse, if_neg hnb, hrest, if_neg hc]
        rfl
      · unfold walkEnd
        dsimp only
        rw [if_pos hin, hparse, if_neg hnb]
        exact hrestE

/-! ### Counting used items under the flip/append updates -/

theorem walk_pos_pairwise (fuel : Nat) (m : Mem) (endv : Nat) : ∀ c,
    (walk fuel m c endv).Pairwise (fun a b => a.1 < b.1) := by
  induction fuel with
  | zero => intro c; simp [walk]
  | succ fuel ih =>
    intro c
    unfold walk
    dsimp only
    by_cases hc : c + 96 ≤ endv
    · have hnb : ¬(alignUp (c + 96 + varLen (parseItem (m.read c 96))) 8 ≤ c) := by
        have := next_gt c (varLen (parseItem (m.read c 96)))
        omega
      rw [if_pos hc, if_neg hnb]
      refine List.Pairwise.cons ?_ (ih _)
      intro pi hpi
      have h1 := (walk_pos_ge fuel m endv _ _ hpi).1
      have h2 := next_gt c (varLen (parseItem (m.read c 96)))
      simp only
      omega
    · rw [if_neg hc]
      simp

theorem usedCount_map_flip (cpos : Nat) (it : QueueItem) (hu : it.used = 1) :
    ∀ W : List (Nat × QueueItem), (cpos, it) ∈ W →
    W.Pairwise (fun a b => a.1 < b.1) →
    usedCount (W.map (fun pi => if pi.1 = cpos then (cpos, { it with used := 0 }) else pi))
      + 1 = usedCount W := by
  intro W
  induction W with
  | nil => intro h _; cases h
  | cons hd tl ih =>
    intro hmem hpw
    have hpw2 := List.pairwise_cons.mp hpw
    rcases List.mem_cons.mp hmem with h | h
    · subst h
      have htl : ∀ pi ∈ tl,
          (fun pi => if pi.1 = cpos then (cpos, { it with used := 0 }) else pi) pi = pi := by
        intro pi hpi
        have := hpw2.1 pi hpi
        simp only at this
        simp only [if_neg (by omega : ¬(pi.1 = cpos))]
      unfold usedCount usedEntries
      simp only [List.map_cons, if_pos rfl, List.map_congr_left htl, List.map_id,
        List.filter_cons]
      simp [hu]
    · have hne : ¬(hd.1 = cpos) := by
        have := hpw2.1 _ h
        simp only at this
        omega
      unfold usedCount usedEntries at *
      simp only [List.map_cons, if_neg hne, List.filter_cons]
      have := ih h hpw2.2
      by_cases hh : hd.2.used == 1 <;> simp [hh] <;> omega

theorem ids_map_flip (cpos : Nat) (it : QueueItem) :
    ∀ W : List (Nat × QueueItem), (cpos, it) ∈ W →
    W.Pairwise (fun a b => a.1 < b.1) →
    (W.map (fun pi => if pi.1 = cpos then (cpos, { it with used := 0 }) else pi)).map
        (fun pi => pi.2.id) = W.map (fun pi => pi.2.id) := by
  intro W
  induction W with
  | nil => intro h _; cases h
  | cons hd tl ih =>
    intro hmem hpw
    have hpw2 := List.pairwise_cons.mp hpw
    rcases List.mem_cons.mp hmem with h | h
    · subst h
      have htl : ∀ pi ∈ tl,
          (fun pi => if pi.1 = cpos then (cpos, { it with used := 0 }) else pi) pi = pi := by
        intro pi hpi
        have := hpw2.1 pi hpi
        simp only at this
        simp only [if_neg (by omega : ¬(pi.1 = cpos))]
      simp only [List.map_cons, if_pos rfl, List.map_congr_left htl, List.map_id]
      simp
    · have hne : ¬(hd.1 = cpos) := by
        have := hpw2.1 _ h
        simp only at this
        omega
      simp only [List.map_cons, if_neg hne, ih h hpw2.2]

/-! ### The queue state invariant -/

/-- The traversal bound `min(acc.len, cursor)` used by every loop. -/
def qend (s : QState) : Nat := min s.mem.len s.cursor

/-- The full parsed layout of a state. -/
def qwalk (s : QState) : List (Nat × QueueItem) :=
  walk (s.mem.len + 1) s.mem itemsStart (qend s)

/-- The traversal's final position. -/
def qwalkEnd (s : QState) : Nat :=
  walkEnd (s.mem.len + 1) s.mem itemsStart (qend s)

/-- The representation invariant of a queue account view: bytes are bytes,
the account respects Solana's 10 MiB size cap, the cursor sits past the
header (a `u32` in range), the traversal ends exactly at the aligned
cursor, and `item_count` counts the used items of the layout. -/
structure QInv (s : QState) : Prop where
  bytes : ∀ i, s.mem.data i < 256
  cap : s.mem.len ≤ 10485760
  cursorGe : itemsStart ≤ s.cursor
  cursorLt : s.cursor < 2 ^ 32
  wend : qwalkEnd s = alignUp s.cursor 8
  count : s.itemCount = usedCount (qwalk s)

theorem qwalk_length_lt (s : QState) : (qwalk s).length < s.mem.len + 1 := by
  have h := walk_length_bound (s.mem.len + 1) s.mem (qend s) itemsStart
  have h2 : qend s ≤ s.mem.len := Nat.min_le_left ..
  unfold qwalk
  have h3 : itemsStart = 16 := rfl
  omega

theorem usedCount_le_length (W : List (Nat × QueueItem)) : usedCount W ≤ W.length := by
  unfold usedCount usedEntries
  exact List.length_filter_le _ _

theorem usedCount_append_one (W : List (Nat × QueueItem)) (pi : Nat × QueueItem)
    (h : pi.2.used = 1) : usedCount (W ++ [pi]) = usedCount W + 1 := by
  unfold usedCount usedEntries
  rw [List.filter_append]
  simp [h]

theorem walk_mem_parse (fuel : Nat) (m : Mem) (endv : Nat) : ∀ c pi,
    pi ∈ walk fuel m c endv → pi.2 = parseItem (m.read pi.1 96) := by
  induction fuel with
  | zero => intro c pi h; cases h
  | succ fuel ih =>
    intro c pi h
    unfold walk at h
    by_cases hc : c + 96 ≤ endv
    · rw [if_pos hc] at h
      dsimp only at h
      rcases List.mem_cons.mp h with h | h
      · subst h; rfl
      · have hnb : ¬(alignUp (c + 96 + varLen (parseItem (m.read c 96))) 8 ≤ c) := by
          have := next_gt c (varLen (parseItem (m.read c 96)))
          omega
        rw [if_neg hnb] at h
        exact ih _ _ h
    · rw [if_neg hc] at h; cases h

theorem parseItem_id_bytes (bs : List Nat) (hb : ∀ b ∈ bs, b < 256) :
    ∀ x ∈ (parseItem bs).id, x < 256 := by
  intro x hx
  unfold parseItem at hx
  exact hb _ (List.mem_of_mem_drop (List.mem_of_mem_take hx))

theorem parseItem_cpid_bytes (bs : List Nat) (hb : ∀ b ∈ bs, b < 256) :
    ∀ x ∈ (parseItem bs).callback_program_id, x < 256 := by
  intro x hx
  unfold parseItem at hx
  exact hb _ (List.mem_of_mem_drop (List.mem_of_mem_take hx))

theorem qwalk_mem_wf (s : QState) (inv : QInv s) :
    ∀ pi ∈ qwalk s, WFitem pi.2 ∧ (∀ x ∈ pi.2.id, x < 256) ∧
      (∀ x ∈ pi.2.callback_program_id, x < 256) := by
  intro pi hpi
  have hp := walk_mem_parse (s.mem.len + 1) s.mem (qend s) itemsStart pi hpi
  have hb : ∀ b ∈ s.mem.read pi.1 96, b < 256 := read_bytes_lt _ _ _ inv.bytes
  have hl : (s.mem.read pi.1 96).length = 96 := Mem.read_length ..
  refine ⟨?_, ?_, ?_⟩
  · rw [hp]; exact parseItem_wf _ hl hb
  · rw [hp]; exact parseItem_id_bytes _ hb
  · rw [hp]; exact parseItem_cpid_bytes _ hb

theorem zeroMem_read (L off n : Nat) : (zeroMem L).read off n = List.replicate n 0 := by
  unfold Mem.read zeroMem
  simp [List.map_const]

theorem qinv_load (L : Nat) (hcap : L ≤ 10485760) (s : QState)
    (h : load (zeroMem L) = .ok s) : QInv s ∧ qwalk s = [] ∧ s.itemCount = 0 ∧
      s.cursor = itemsStart ∧ s.mem = zeroMem L := by
  unfold load at h
  by_cases hL : L < 12
  · rw [if_pos (by simpa [zeroMem] using hL)] at h
    cases h
  · rw [if_neg (by simpa [zeroMem] using hL)] at h
    have hr : leNat ((zeroMem L).read 0 4) = 0 := by
      rw [zeroMem_read]
      rfl
    have hr2 : leNat ((zeroMem L).read 4 4) = 0 := by
      rw [zeroMem_read]
      rfl
    rw [Except.ok.injEq] at h
    subst h
    have hqe : qend ⟨0, itemsStart, (zeroMem L).data 8, zeroMem L⟩ ≤ 16 := by
      unfold qend itemsStart alignUp
      simp
    have hwalk : qwalk ⟨0, itemsStart, (zeroMem L).data 8, zeroMem L⟩ = [] := by
      unfold qwalk walk
      rw [if_neg (by omega)]
    have hwend : qwalkEnd ⟨0, itemsStart, (zeroMem L).data 8, zeroMem L⟩ = itemsStart := by
      unfold qwalkEnd walkEnd
      rw [if_neg (by omega)]
    rw [hr, hr2]
    have hif : (if (0 : Nat) = 0 then itemsStart else 0) = itemsStart := rfl
    rw [hif]
    refine ⟨⟨fun i => by simp [zeroMem], by simpa [zeroMem] using hcap, Nat.le_refl _,
      by show (itemsStart : Nat) < 2 ^ 32; decide, ?_, ?_⟩, hwalk, rfl, rfl, rfl⟩
    · rw [hwend]
      show (itemsStart : Nat) = alignUp itemsStart 8
      decide
    · rw [hwalk]
      rfl

theorem serMeta_length (c : CMeta) (h : c.pubkey.length = 32) : (serMeta c).length = 33 := by
  simp [serMeta, h]

theorem metasBytes_length (metas : List CMeta) (h : ∀ c ∈ metas, c.pubkey.length = 32) :
    (metas.flatMap serMeta).length = metas.length * 33 := by
  induction metas with
  | nil => rfl
  | cons hd tl ih =>
    simp only [List.flatMap_cons, List.length_append, List.length_cons,
      serMeta_length hd (h hd (List.mem_cons_self ..)),
      ih (fun c hc => h c (List.mem_cons_of_mem _ hc))]
    ring

theorem metasBytes_bytes_lt (metas : List CMeta)
    (h : ∀ c ∈ metas, ∀ x ∈ c.pubkey, x < 256) :
    ∀ b ∈ metas.flatMap serMeta, b < 256 := by
  intro b hb
  rcases List.mem_flatMap.mp hb with ⟨c, hc, hbc⟩
  unfold serMeta at hbc
  rcases List.mem_append.mp hbc with h2 | h2
  · exact h c hc b h2
  · rcases List.mem_singleton.mp h2 with rfl
    exact Nat.mod_lt _ (by omega)

/-- The completed item that a successful `add_item` stores (offsets from
the aligned cursor, `u16`-cast lengths, `used = 1`). -/
def addBuiltItem (s : QState) (b : QueueItem) (disc : List Nat) (metas : List CMeta)
    (args : List Nat) : QueueItem :=
  { b with
    callback_discriminator_offset := (alignUp s.cursor 8 + 96) % 2 ^ 32,
    callback_discriminator_len := disc.length % 2 ^ 16,
    metas_offset := (alignUp s.cursor 8 + 96 + disc.length) % 2 ^ 32,
    metas_len := metas.length % 2 ^ 16,
    args_offset := (alignUp s.cursor 8 + 96 + disc.length + (metas.flatMap serMeta).length) % 2 ^ 32,
    args_len := args.length % 2 ^ 16,
    used := 1 }

/-- The well-formedness of `add_item` inputs: payload bytes are bytes, the
discriminator is shorter than 2^16 (so its `u16` cast is lossless), metas
carry 32-byte pubkeys, and the base item's fixed fields are in range. -/
structure AddWF (b : QueueItem) (disc : List Nat) (metas : List CMeta)
    (args : List Nat) : Prop where
  discBytes : ∀ x ∈ disc, x < 256
  discLen : disc.length < 2 ^ 16
  metasWF : ∀ c ∈ metas, c.pubkey.length = 32 ∧ ∀ x ∈ c.pubkey, x < 256
  argsBytes : ∀ x ∈ args, x < 256
  bidLen : b.id.length = 32
  bidBytes : ∀ x ∈ b.id, x < 256
  bcpidLen : b.callback_program_id.length = 32
  bcpidBytes : ∀ x ∈ b.callback_program_id, x < 256
  bslotLt : b.slot < 2 ^ 64
  bprioLt : b.priority_request < 256

theorem qinv_add (s : QState) (inv : QInv s) (b : QueueItem) (disc : List Nat)
    (metas : List CMeta) (args : List Nat) (hwf : AddWF b disc metas args)
    (s1 : QState) (i : Nat) (hok : add_item s b disc metas args = .ok (s1, i)) :
    QInv s1 ∧ i = s.itemCount ∧ s1.itemCount = s.itemCount + 1 ∧
    s1.mem.len = s.mem.len ∧
    s1.cursor = alignUp s.cursor 8 + 96 + varLen (addBuiltItem s b disc metas args) ∧
    qwalk s1 = qwalk s ++ [(alignUp s.cursor 8, addBuiltItem s b disc metas args)] := by
  unfold add_item at hok
  by_cases h1 : 20 < metas.length ∨ 512 < args.length
  · rw [if_pos h1] at hok; cases hok
  rw [if_neg h1] at hok
  dsimp only at hok
  by_cases h2 : alignUp s.cursor 8 ≠ s.cursor ∧ s.mem.len < alignUp s.cursor 8
  · rw [if_pos h2] at hok; cases hok
  rw [if_neg h2] at hok
  by_cases h3 : s.mem.len < alignUp s.cursor 8 + 96
  · rw [if_pos h3] at hok; cases hok
  rw [if_neg h3] at hok
  by_cases h4 : s.mem.len < alignUp s.cursor 8 + 96 + disc.length
  · rw [if_pos h4] at hok; cases hok
  rw [if_neg h4] at hok
  by_cases h5 : s.mem.len < alignUp s.cursor 8 + 96 + disc.length + (metas.flatMap serMeta).length
  · rw [if_pos h5] at hok; cases hok
  rw [if_neg h5] at hok
  by_cases h6 : s.mem.len < alignUp s.cursor 8 + 96 + disc.length + (metas.flatMap serMeta).length + args.length
  · rw [if_pos h6] at hok; cases hok
  rw [if_neg h6] at hok
  rw [Except.ok.injEq, Prod.mk.injEq] at hok
  obtain ⟨hs1, hi⟩ := hok
  have hmb : (metas.flatMap serMeta).length = metas.length * 33 :=
    metasBytes_length metas (fun c hc => (hwf.metasWF c hc).1)
  have hcursor_le : s.cursor ≤ s.mem.len := by
    have := le_alignUp s.cursor
    omega
  have hqend : qend s = s.cursor := Nat.min_eq_right hcursor_le
  have haligned_ge : s.cursor ≤ alignUp s.cursor 8 := le_alignUp s.cursor
  have h16 : itemsStart ≤ s.cursor := inv.cursorGe
  have h16v : (itemsStart : Nat) = 16 := rfl
  have hitemWF : WFitem (addBuiltItem s b disc metas args) :=
    ⟨hwf.bslotLt, hwf.bidLen, hwf.bcpidLen, Nat.mod_lt _ (by omega), Nat.mod_lt _ (by omega),
     Nat.mod_lt _ (by omega), Nat.mod_lt _ (by omega), Nat.mod_lt _ (by omega),
     Nat.mod_lt _ (by omega), hwf.bprioLt, by show (1 : Nat) < 256; omega⟩
  have hser_len : (serItem (addBuiltItem s b disc metas args)).length = 96 :=
    serItem_length _ hwf.bidLen hwf.bcpidLen
  have hvar : varLen (addBuiltItem s b disc metas args) =
      disc.length + (metas.flatMap serMeta).length + args.length := by
    unfold varLen addBuiltItem
    dsimp only
    rw [Nat.mod_eq_of_lt hwf.discLen, Nat.mod_eq_of_lt (by omega : metas.length < 2 ^ 16),
      Nat.mod_eq_of_lt (by omega : args.length < 2 ^ 16), hmb]
  -- component equations for the result state
  have hs1mem : s1.mem =
      ((((if alignUp s.cursor 8 ≠ s.cursor
        then s.mem.writeBytes s.cursor (List.replicate (alignUp s.cursor 8 - s.cursor) 0)
        else s.mem).writeBytes (alignUp s.cursor 8 + 96) disc).writeBytes
          (alignUp s.cursor 8 + 96 + disc.length) (metas.flatMap serMeta)).writeBytes
          (alignUp s.cursor 8 + 96 + disc.length + (metas.flatMap serMeta).length) args).writeBytes
          (alignUp s.cursor 8) (serItem (addBuiltItem s b disc metas args)) := by
    have hb : ({ b with
        callback_discriminator_offset := (alignUp s.cursor 8 + 96) % 2 ^ 32,
        callback_discriminator_len := disc.length % 2 ^ 16,
        metas_offset := (alignUp s.cursor 8 + 96 + disc.length) % 2 ^ 32,
        metas_len := metas.length % 2 ^ 16,
        args_offset := (alignUp s.cursor 8 + 96 + disc.length + (metas.flatMap serMeta).length) % 2 ^ 32,
        args_len := args.length % 2 ^ 16,
        used := 1 } : QueueItem) = addBuiltItem s b disc metas args := rfl
    rw [← hs1, ← hb]
  have hs1cursor : s1.cursor =
      (alignUp s.cursor 8 + 96 + disc.length + (metas.flatMap serMeta).length + args.length) % 2 ^ 32 := by
    rw [← hs1]
  have hs1count : s1.itemCount = min (s.itemCount + 1) (2 ^ 32 - 1) := by
    rw [← hs1]
  have hi2 : i = s.itemCount := hi.symm
  -- memory facts
  have hmem0read : ∀ q n, q + n ≤ s.cursor →
      (if alignUp s.cursor 8 ≠ s.cursor
        then s.mem.writeBytes s.cursor (List.replicate (alignUp s.cursor 8 - s.cursor) 0)
        else s.mem).read q n = s.mem.read q n := by
    intro q n hq
    split
    · exact Mem.read_writeBytes_disjoint _ _ _ _ _ (by omega)
    · rfl
  have hmem0bytes : ∀ i,
      (if alignUp s.cursor 8 ≠ s.cursor
        then s.mem.writeBytes s.cursor (List.replicate (alignUp s.cursor 8 - s.cursor) 0)
        else s.mem).data i < 256 := by
    split
    · exact writeBytes_bytes_lt _ _ _ inv.bytes
        (by intro x hx; rw [List.eq_of_mem_replicate hx]; omega)
    · exact inv.bytes
  have hmem0len :
      (if alignUp s.cursor 8 ≠ s.cursor
        then s.mem.writeBytes s.cursor (List.replicate (alignUp s.cursor 8 - s.cursor) 0)
        else s.mem).len = s.mem.len := by
    split <;> rfl
  have hlen4 : s1.mem.len = s.mem.len := by
    rw [hs1mem]
    simp only [Mem.len_writeBytes]
    exact hmem0len
  have hagree : ∀ q n, q + n ≤ qend s → s1.mem.read q n = s.mem.read q n := by
    intro q n hq
    rw [hqend] at hq
    rw [hs1mem]
    rw [Mem.read_writeBytes_disjoint _ _ _ _ _ (by left; omega),
      Mem.read_writeBytes_disjoint _ _ _ _ _ (by left; omega),
      Mem.read_writeBytes_disjoint _ _ _ _ _ (by left; omega),
      Mem.read_writeBytes_disjoint _ _ _ _ _ (by left; omega)]
    exact hmem0read q n hq
  have hnew : s1.mem.read (alignUp s.cursor 8) 96 = serItem (addBuiltItem s b disc metas args) := by
    rw [hs1mem]
    have h := Mem.read_writeBytes_self
      ((((if alignUp s.cursor 8 ≠ s.cursor
        then s.mem.writeBytes s.cursor (List.replicate (alignUp s.cursor 8 - s.cursor) 0)
        else s.mem).writeBytes (alignUp s.cursor 8 + 96) disc).writeBytes
          (alignUp s.cursor 8 + 96 + disc.length) (metas.flatMap serMeta)).writeBytes
          (alignUp s.cursor 8 + 96 + disc.length + (metas.flatMap serMeta).length) args)
      (alignUp s.cursor 8) (serItem (addBuiltItem s b disc metas args))
    rw [hser_len] at h
    exact h
  have hnc : (alignUp s.cursor 8 + 96 + disc.length + (metas.flatMap serMeta).length + args.length) % 2 ^ 32 =
      alignUp s.cursor 8 + 96 + disc.length + (metas.flatMap serMeta).length + args.length := by
    apply Nat.mod_eq_of_lt
    have := inv.cap
    omega
  have hqend1 : qend s1 =
      alignUp s.cursor 8 + 96 + disc.length + (metas.flatMap serMeta).length + args.length := by
    unfold qend
    rw [hs1cursor, hlen4, hnc]
    omega
  have hext := walk_add_extend s.mem s1.mem (qend s)
    (alignUp s.cursor 8 + 96 + disc.length + (metas.flatMap serMeta).length + args.length)
    (alignUp s.cursor 8) (addBuiltItem s b disc metas args)
    hagree hnew hitemWF (by omega)
    (by rw [hvar]
        have h := le_alignUp (alignUp s.cursor 8 + 96 +
          (disc.length + (metas.flatMap serMeta).length + args.length))
        omega)
    (by rw [hqend]; omega)
    (s.mem.len + 1) itemsStart (qwalk_length_lt s)
    (by have h := inv.wend; unfold qwalkEnd at h; exact h)
  obtain ⟨hextW, hextE⟩ := hext
  have hcnt_lt : s.itemCount < 10485761 := by
    have h := inv.count
    have h2 := usedCount_le_length (qwalk s)
    have h3 := qwalk_length_lt s
    have h4 := inv.cap
    omega
  have hmin : min (s.itemCount + 1) (2 ^ 32 - 1) = s.itemCount + 1 :=
    Nat.min_eq_left (by omega)
  have hwalk1 : qwalk s1 = qwalk s ++ [(alignUp s.cursor 8, addBuiltItem s b disc metas args)] := by
    unfold qwalk
    rw [hqend1, hlen4]
    exact hextW
  refine ⟨⟨?_, ?_, ?_, ?_, ?_, ?_⟩, hi2, hs1count.trans hmin, hlen4,
    by rw [hs1cursor, hnc, hvar]; omega, hwalk1⟩
  · rw [hs1mem]
    apply writeBytes_bytes_lt
    · apply writeBytes_bytes_lt
      · apply writeBytes_bytes_lt
        · apply writeBytes_bytes_lt
          · exact hmem0bytes
          · exact hwf.discBytes
        · exact metasBytes_bytes_lt metas (fun c hc => (hwf.metasWF c hc).2)
      · exact hwf.argsBytes
    · exact serItem_bytes_lt _ hwf.bidBytes hwf.bcpidBytes
  · rw [hlen4]
    exact inv.cap
  · rw [hs1cursor, hnc]
    omega
  · rw [hs1cursor, hnc]
    have := inv.cap
    omega
  · unfold qwalkEnd
    rw [hqend1, hlen4, hextE, hs1cursor, hnc, hvar]
    congr 1
    omega
  · rw [hs1count, hmin, hwalk1, inv.count]
    rw [usedCount_append_one _ _ rfl]

/-- A successful `remove_item` is a lookup in the used entries of the
layout followed by the in-place `used`-flag clear. -/
theorem remove_ok_of_get (s : QState) (index cpos : Nat) (it : QueueItem)
    (hsome : (usedEntries (qwalk s))[index]? = some (cpos, it)) :
    remove_item s index = .ok ({ s with mem := s.mem.writeBytes cpos (serItem { it with used := 0 }), itemCount := s.itemCount - 1 }, { it with used := 0 }) := by
  have hA : removeItemAux (s.mem.len + 1) s.mem itemsStart (min s.mem.len s.cursor) index =
      match ((qwalk s).filter (fun pi => pi.2.used == 1))[index]? with
      | none => none
      | some pi => some (s.mem.writeBytes pi.1 (serItem { pi.2 with used := 0 }),
                         { pi.2 with used := 0 }) :=
    removeItemAux_eq_walk (s.mem.len + 1) s.mem (min s.mem.len s.cursor) itemsStart index
  unfold usedEntries at hsome
  unfold remove_item
  rw [hA, hsome]

/-- Preservation of the queue invariant by `remove_item`: the removed
entry is the `index`-th used entry, the returned item is its `used := 0`
flip, the count decrements, the cursor and length are unchanged, and the
layout keeps every entry except that the removed position is flipped. -/
theorem qinv_remove (s : QState) (inv : QInv s) (index : Nat) (s1 : QState)
    (rit : QueueItem) (hok : remove_item s index = .ok (s1, rit)) :
    ∃ cpos it, (usedEntries (qwalk s))[index]? = some (cpos, it) ∧
      rit = { it with used := 0 } ∧ it.used = 1 ∧
      QInv s1 ∧ s1.itemCount = s.itemCount - 1 ∧ s1.cursor = s.cursor ∧
      s1.index = s.index ∧ s1.mem.len = s.mem.len ∧
      qwalk s1 = (qwalk s).map
        (fun pi => if pi.1 = cpos then (cpos, { it with used := 0 }) else pi) := by
  have hA : removeItemAux (s.mem.len + 1) s.mem itemsStart (min s.mem.len s.cursor) index =
      match ((qwalk s).filter (fun pi => pi.2.used == 1))[index]? with
      | none => none
      | some pi => some (s.mem.writeBytes pi.1 (serItem { pi.2 with used := 0 }),
                         { pi.2 with used := 0 }) :=
    removeItemAux_eq_walk (s.mem.len + 1) s.mem (min s.mem.len s.cursor) itemsStart index
  unfold remove_item at hok
  rw [hA] at hok
  cases hW : ((qwalk s).filter (fun pi => pi.2.used == 1))[index]? with
  | none => rw [hW] at hok; cases hok
  | some pi =>
    rw [hW] at hok
    dsimp only at hok
    rw [Except.ok.injEq, Prod.mk.injEq] at hok
    obtain ⟨hs1, hrit⟩ := hok
    have hpifil : pi ∈ (qwalk s).filter (fun pi => pi.2.used == 1) := List.getElem?_mem hW
    have hpi := List.mem_filter.mp hpifil
    have hmem : pi ∈ qwalk s := hpi.1
    have hu : pi.2.used = 1 := by simpa using hpi.2
    have hmemq : (pi.1, pi.2) ∈ walk (s.mem.len + 1) s.mem itemsStart (qend s) := by
      rw [Prod.mk.eta]
      exact hmem
    obtain ⟨hWF, hid, hcpid⟩ := qwalk_mem_wf s inv pi hmem
    have hs1mem : s1.mem = s.mem.writeBytes pi.1 (serItem { pi.2 with used := 0 }) := by
      rw [← hs1]
    have hs1cnt : s1.itemCount = s.itemCount - 1 := by rw [← hs1]
    have hs1cur : s1.cursor = s.cursor := by rw [← hs1]
    have hs1idx : s1.index = s.index := by rw [← hs1]
    have hlen : s1.mem.len = s.mem.len := by
      rw [hs1mem, Mem.len_writeBytes]
    have hqend1 : qend s1 = qend s := by
      unfold qend
      rw [hlen, hs1cur]
    have hwalk1 : qwalk s1 = (qwalk s).map
        (fun q => if q.1 = pi.1 then (pi.1, { pi.2 with used := 0 }) else q) := by
      unfold qwalk
      rw [hqend1, hs1mem, Mem.len_writeBytes]
      exact walk_write_used (s.mem.len + 1) s.mem (qend s) pi.1 pi.2 hWF itemsStart hmemq
    have hwend1 : qwalkEnd s1 = alignUp s.cursor 8 := by
      unfold qwalkEnd
      rw [hqend1, hs1mem, Mem.len_writeBytes]
      rw [walkEnd_write_used (s.mem.len + 1) s.mem (qend s) pi.1 pi.2 hWF itemsStart hmemq]
      exact inv.wend
    have hflip : usedCount ((qwalk s).map
        (fun q => if q.1 = pi.1 then (pi.1, { pi.2 with used := 0 }) else q)) + 1 =
        usedCount (qwalk s) :=
      usedCount_map_flip pi.1 pi.2 hu (qwalk s) (by rw [Prod.mk.eta]; exact hmem)
        (walk_pos_pairwise (s.mem.len + 1) s.mem (qend s) itemsStart)
    refine ⟨pi.1, pi.2, ?_, hrit.symm, hu, ⟨?_, ?_, ?_, ?_, ?_, ?_⟩, hs1cnt, hs1cur,
      hs1idx, hlen, hwalk1⟩
    · unfold usedEntries
      rw [hW, Prod.mk.eta]
    · rw [hs1mem]
      exact writeBytes_bytes_lt _ _ _ inv.bytes (serItem_bytes_lt _ hid hcpid)
    · rw [hlen]
      exact inv.cap
    · rw [hs1cur]
      exact inv.cursorGe
    · rw [hs1cur]
      exact inv.cursorLt
    · rw [hwend1, hs1cur]
    · rw [hs1cnt, hwalk1, inv.count]
      omega

/-- Reading a prefix of a just-written region returns the written prefix. -/
theorem Mem.read_writeBytes_take (m : Mem) (off : Nat) (bs : List Nat) (n : Nat)
    (h : n ≤ bs.length) : (m.writeBytes off bs).read off n = bs.take n := by
  apply List.ext_getElem
  · simp [Mem.read, h]
  · intro i h1 h2
    simp only [Mem.read, List.getElem_map, List.getElem_range]
    simp only [Mem.read, List.length_map, List.length_range] at h1
    rw [Mem.data_writeBytes_inside m off bs (off + i) (by omega) (by omega),
      Nat.add_sub_cancel_left, List.getElem_take,
      List.getD_eq_getElem bs 0 (by omega : i < bs.length)]

/-! ### Reachable queue states -/

/-- The queue states produced by `load` on a zero-initialized account no
larger than Solana's 10 MiB account cap, closed under successful
`add_item` calls with well-formed inputs and successful `remove_item`
calls. -/
inductive QReach : QState → Prop where
  | load (L : Nat) (hcap : L ≤ 10485760) (s : QState)
      (h : load (zeroMem L) = .ok s) : QReach s
  | add (s : QState) (hs : QReach s) (b : QueueItem) (disc : List Nat)
      (metas : List CMeta) (args : List Nat) (hwf : AddWF b disc metas args)
      (s1 : QState) (i : Nat) (h : add_item s b disc metas args = .ok (s1, i)) :
      QReach s1
  | remove (s : QState) (hs : QReach s) (index : Nat) (s1 : QState)
      (it : QueueItem) (h : remove_item s index = .ok (s1, it)) : QReach s1

/-- Every reachable state satisfies the representation invariant. -/
theorem qreach_inv (s : QState) (h : QReach s) : QInv s := by
  induction h with
  | load L hcap s h => exact (qinv_load L hcap s h).1
  | add s hs b disc metas args hwf s1 i h ih =>
    exact (qinv_add s ih b disc metas args hwf s1 i h).1
  | remove s hs index s1 it h ih =>
    obtain ⟨cpos, it2, _, _, _, hinv, _⟩ := qinv_remove s ih index s1 it h
    exact hinv

/-- One unfolding step of the iteration loop. -/
theorem iterItemsAux_succ (fuel : Nat) (m : Mem) (c endv : Nat) :
    iterItemsAux (fuel + 1) m c endv =
      if c + 96 ≤ endv then
        (if (parseItem (m.read c 96)).used = 1 then [parseItem (m.read c 96)] else []) ++
          (if alignUp (c + 96 + varLen (parseItem (m.read c 96))) 8 ≤ c then []
           else iterItemsAux fuel m (alignUp (c + 96 + varLen (parseItem (m.read c 96))) 8) endv)
      else [] := rfl

/-- **C6, amended.** On every queue state reachable by `load` on a zeroed
account plus well-formed `add_item` and `remove_item` calls — in
particular, every stored discriminator is shorter than `2^16` bytes, so
its `u16` length cast is lossless — the header `item_count` equals the
number of `used == 1` items yielded by `iter_items` (and every yielded
item is used). Without the discriminator-length bound the claim is
false: `add_item` never checks the discriminator length, and a
65536-byte discriminator truncates to a stored length of 0, derailing
the traversal into attacker-chosen bytes (see the counterexample). -/
theorem c6_item_count_matches_iteration (s : QState) (h : QReach s) :
    s.itemCount = ((iter_items s).filter (fun it => it.used == 1)).length ∧
    ∀ it ∈ iter_items s, it.used = 1 := by
  have inv := qreach_inv s h
  have hit : iter_items s =
      ((qwalk s).filter (fun pi => pi.2.used == 1)).map (fun pi => pi.2) :=
    iterItemsAux_eq_walk (s.mem.len + 1) s.mem (qend s) itemsStart
  have hall : ∀ a ∈ ((qwalk s).filter (fun pi => pi.2.used == 1)).map (fun pi => pi.2),
      (a.used == 1) = true := by
    intro a ha
    rcases List.mem_map.mp ha with ⟨pi, hpi, rfl⟩
    exact (List.mem_filter.mp hpi).2
  constructor
  · rw [inv.count, hit, List.filter_eq_self.mpr hall, List.length_map]
    rfl
  · intro it hit2
    rw [hit] at hit2
    have := hall it hit2
    simpa using this

/-- The zeroed 200-byte account state, as `load` returns it. -/
def c6wS : QState := ⟨0, itemsStart, 0, zeroMem 200⟩

/-- **C6, witness.** The amended statement evaluated on the freshly
loaded empty queue. -/
theorem c6_witness :
    c6wS.itemCount = ((iter_items c6wS).filter (fun it => it.used == 1)).length ∧
    ∀ it ∈ iter_items c6wS, it.used = 1 :=
  c6_item_count_matches_iteration c6wS (QReach.load 200 (by norm_num) c6wS rfl)

/-- The all-zero base item a caller passes to `add_item`. -/
def c6cBase : QueueItem :=
  ⟨0, List.replicate 32 0, List.replicate 32 0, 0, 0, 0, 0, 0, 0, 0, 0⟩

/-- A fake item image: `used = 1` and an `args_len` of 65535 that makes
the traversal step past the end of the account. -/
def c6cFake : QueueItem :=
  ⟨0, List.replicate 32 0, List.replicate 32 0, 0, 0, 0, 0, 0, 65535, 0, 1⟩

/-- A 65536-byte callback discriminator whose first 96 bytes spell the
fake item. Its length casts to `0_u16` in `add_item`. -/
def c6cDisc : List Nat := serItem c6cFake ++ List.replicate 65440 0

/-- The loaded empty state of a zeroed 65648-byte account. -/
def c6cS0 : QState := ⟨0, itemsStart, 0, zeroMem 65648⟩

/-- The item record `add_item` stores for the oversized discriminator:
`callback_discriminator_len` is the truncated `65536 % 2^16 = 0`. -/
def c6cItem : QueueItem :=
  ⟨0, List.replicate 32 0, List.replicate 32 0, 112, 65648, 65648, 0, 0, 0, 0, 1⟩

/-- The account memory after the oversized-discriminator `add_item`. -/
def c6cMem : Mem :=
  ((((zeroMem 65648).writeBytes 112 c6cDisc).writeBytes 65648 []).writeBytes
    65648 []).writeBytes 16 (serItem c6cItem)

/-- The queue state after the oversized-discriminator `add_item`. -/
def c6cS1 : QState := ⟨1, 65648, 0, c6cMem⟩

theorem c6cFake_len96 : (serItem c6cFake).length = 96 :=
  serItem_length _ (by simp [c6cFake]) (by simp [c6cFake])

theorem c6cDisc_length : c6cDisc.length = 65536 := by
  show (serItem c6cFake ++ List.replicate 65440 0).length = 65536
  rw [List.length_append, c6cFake_len96, List.length_replicate]

theorem c6cItem_len96 : (serItem c6cItem).length = 96 :=
  serItem_length _ (by simp [c6cItem]) (by simp [c6cItem])

theorem c6c_add_eval : add_item c6cS0 c6cBase c6cDisc [] [] = .ok (c6cS1, 0) := by
  unfold add_item
  rw [if_neg (by decide : ¬(20 < List.length ([] : List CMeta) ∨
    512 < List.length ([] : List Nat)))]
  rw [c6cDisc_length]
  dsimp only [c6cS0]
  have hAI : alignUp itemsStart 8 = 16 := by decide
  have hIS : (itemsStart : Nat) = 16 := rfl
  rw [hAI, hIS]
  norm_num [c6cS1, c6cMem, c6cItem, c6cBase, zeroMem]

theorem c6c_iter_eval : iter_items c6cS1 = [c6cItem, c6cFake] := by
  have hlen : c6cMem.len = 65648 := rfl
  have hmin : min (65648 : Nat) 65648 = 65648 := by norm_num
  have his : (itemsStart : Nat) = 16 := rfl
  have hr16 : c6cMem.read 16 96 = serItem c6cItem := by
    unfold c6cMem
    have h := Mem.read_writeBytes_self
      ((((zeroMem 65648).writeBytes 112 c6cDisc).writeBytes 65648 []).writeBytes 65648 [])
      16 (serItem c6cItem)
    rw [c6cItem_len96] at h
    exact h
  have hr112 : c6cMem.read 112 96 = serItem c6cFake := by
    unfold c6cMem
    rw [Mem.read_writeBytes_disjoint _ _ _ _ _ (Or.inr (by rw [c6cItem_len96]))]
    rw [Mem.read_writeBytes_disjoint _ _ _ _ _ (Or.inl (by norm_num))]
    rw [Mem.read_writeBytes_disjoint _ _ _ _ _ (Or.inl (by norm_num))]
    rw [Mem.read_writeBytes_take _ _ _ _ (by rw [c6cDisc_length]; norm_num)]
    show (serItem c6cFake ++ List.replicate 65440 0).take 96 = serItem c6cFake
    exact take_append_len c6cFake_len96
  have hwf1 : WFitem c6cItem :=
    ⟨by norm_num [c6cItem], by simp [c6cItem], by simp [c6cItem], by norm_num [c6cItem],
     by norm_num [c6cItem], by norm_num [c6cItem], by norm_num [c6cItem],
     by norm_num [c6cItem], by norm_num [c6cItem], by norm_num [c6cItem],
     by norm_num [c6cItem]⟩
  have hwf2 : WFitem c6cFake :=
    ⟨by norm_num [c6cFake], by simp [c6cFake], by simp [c6cFake], by norm_num [c6cFake],
     by norm_num [c6cFake], by norm_num [c6cFake], by norm_num [c6cFake],
     by norm_num [c6cFake], by norm_num [c6cFake], by norm_num [c6cFake],
     by norm_num [c6cFake]⟩
  have hv1 : varLen c6cItem = 0 := rfl
  have hv2 : varLen c6cFake = 65535 := rfl
  have ha1 : alignUp (16 + 96 + 0) 8 = 112 := by decide
  have ha2 : alignUp (112 + 96 + 65535) 8 = 65744 := by decide
  show iterItemsAux (c6cS1.mem.len + 1) c6cS1.mem itemsStart
    (min c6cS1.mem.len c6cS1.cursor) = [c6cItem, c6cFake]
  have hm : c6cS1.mem = c6cMem := rfl
  have hc : c6cS1.cursor = 65648 := rfl
  rw [hm, hc, hlen, hmin, his]
  rw [iterItemsAux_succ]
  rw [if_pos (by norm_num : (16 : Nat) + 96 ≤ 65648), hr16, parse_serItem hwf1, hv1, ha1]
  rw [if_pos (show c6cItem.used = 1 from rfl), if_neg (by norm_num : ¬(112 : Nat) ≤ 16)]
  rw [show (65648 : Nat) = 65647 + 1 from rfl, iterItemsAux_succ]
  rw [if_pos (by norm_num : (112 : Nat) + 96 ≤ 65648), hr112, parse_serItem hwf2, hv2, ha2]
  rw [if_pos (show c6cFake.used = 1 from rfl), if_neg (by norm_num : ¬(65744 : Nat) ≤ 112)]
  rw [show (65647 : Nat) = 65646 + 1 from rfl, iterItemsAux_succ]
  rw [if_neg (by norm_num : ¬(65744 : Nat) + 96 ≤ 65648)]
  rfl

/-- **C6, counterexample.** A single `add_item` on a freshly loaded
65648-byte account with a 65536-byte discriminator succeeds (the
discriminator length is never checked), but its `u16` length cast
truncates to 0: the stored item claims an empty payload, the traversal
walks into the discriminator bytes and parses a fake `used = 1` item
planted there, so `iter_items` yields two used items while `item_count`
is 1. -/
theorem c6_counterexample :
    load (zeroMem 65648) = .ok c6cS0 ∧
    add_item c6cS0 c6cBase c6cDisc [] [] = .ok (c6cS1, 0) ∧
    c6cS1.itemCount = 1 ∧
    ((iter_items c6cS1).filter (fun it => it.used == 1)).length = 2 := by
  refine ⟨rfl, c6c_add_eval, rfl, ?_⟩
  rw [c6c_iter_eval]
  rfl

/-- The all-zero base item for the C7 roundtrip evaluation. -/
def c7wBase : QueueItem :=
  ⟨0, List.replicate 32 0, List.replicate 32 0, 0, 0, 0, 0, 0, 0, 0, 0⟩

/-- The loaded empty state of a zeroed 200-byte account. -/
def c7wS0 : QState := ⟨0, itemsStart, 0, zeroMem 200⟩

/-- The item stored by `add_item c7wS0 c7wBase [] [] []`. -/
def c7wItem : QueueItem :=
  ⟨0, List.replicate 32 0, List.replicate 32 0, 112, 112, 112, 0, 0, 0, 0, 1⟩

/-- The account memory after that `add_item`. -/
def c7wMem : Mem :=
  ((((zeroMem 200).writeBytes 112 []).writeBytes 112 []).writeBytes 112 []).writeBytes
    16 (serItem c7wItem)

/-- The queue state after that `add_item`. -/
def c7wS1 : QState := ⟨1, 112, 0, c7wMem⟩

theorem c7wWF : AddWF c7wBase [] [] [] :=
  ⟨by simp, by simp, by simp, by simp, by simp [c7wBase], by simp [c7wBase],
   by simp [c7wBase], by simp [c7wBase], by norm_num [c7wBase], by norm_num [c7wBase]⟩

/-- **C7, amended.** On any state satisfying the queue invariant, a
successful `add_item` returning logical index `i` is undone by
`remove_item i`: the removal succeeds, `item_count` returns to its
pre-add value, and the returned item equals the stored one in every
field except `used`, which the removal clears to 0 (the stored item has
`used = 1`, so the original claim's "fields equal those written" fails
exactly on `used`; see the counterexample). -/
theorem c7_add_remove_roundtrip (s : QState) (inv : QInv s) (b : QueueItem)
    (disc : List Nat) (metas : List CMeta) (args : List Nat)
    (hwf : AddWF b disc metas args) (s1 : QState) (i : Nat)
    (hok : add_item s b disc metas args = .ok (s1, i)) :
    ∃ s2, remove_item s1 i =
        .ok (s2, { addBuiltItem s b disc metas args with used := 0 }) ∧
      s2.itemCount = s.itemCount := by
  obtain ⟨hinv1, hi, hcnt1, hlen, hcur, hwalk⟩ :=
    qinv_add s inv b disc metas args hwf s1 i hok
  have hu : (addBuiltItem s b disc metas args).used = 1 := rfl
  have hue : usedEntries (qwalk s1) =
      usedEntries (qwalk s) ++ [(alignUp s.cursor 8, addBuiltItem s b disc metas args)] := by
    unfold usedEntries
    rw [hwalk, List.filter_append]
    simp [hu]
  have hilen : i = (usedEntries (qwalk s)).length := by
    rw [hi, inv.count]
    rfl
  have hsome : (usedEntries (qwalk s1))[i]? =
      some (alignUp s.cursor 8, addBuiltItem s b disc metas args) := by
    rw [hue, hilen]
    exact List.getElem?_concat_length _ _
  have hrem := remove_ok_of_get s1 i (alignUp s.cursor 8)
    (addBuiltItem s b disc metas args) hsome
  exact ⟨_, hrem, by show s1.itemCount - 1 = s.itemCount; omega⟩

/-- **C7, witness.** The roundtrip evaluated on the concrete `add_item`
into the freshly loaded empty 200-byte queue. -/
theorem c7_witness :
    ∃ s2, remove_item c7wS1 0 =
        .ok (s2, { addBuiltItem c7wS0 c7wBase [] [] [] with used := 0 }) ∧
      s2.itemCount = c7wS0.itemCount :=
  c7_add_remove_roundtrip c7wS0 (qinv_load 200 (by norm_num) c7wS0 rfl).1
    c7wBase [] [] [] c7wWF c7wS1 0 rfl

/-- **C7, counterexample.** The item written by `add_item` has
`used = 1`, but the item that the subsequent `remove_item` returns
carries `used = 0`: the returned fields do not all equal those
written. -/
theorem c7_counterexample :
    ∃ s2 rit, remove_item c7wS1 0 = .ok (s2, rit) ∧
      (addBuiltItem c7wS0 c7wBase [] [] []).used = 1 ∧ rit.used = 0 ∧
      rit ≠ addBuiltItem c7wS0 c7wBase [] [] [] := by
  refine ⟨_, _, rfl, rfl, rfl, ?_⟩
  decide

/-! ### Request ids (`program/src/request_randomness.rs`) -/

/-- The request id: `hashv(caller_seed ‖ slot_le ‖ slothash ‖
callback_discriminator ‖ callback_program_id ‖ time_le ‖ idx_le)` with
`idx` the queue's `item_count` at insertion time. -/
def requestId (seed : List Nat) (slot : Nat) (slothash disc cpid : List Nat)
    (time idx : Nat) : List Nat :=
  sha256 (seed ++ natLe 8 slot ++ slothash ++ disc ++ cpid ++
    natLe 8 time ++ natLe 4 idx)

/-- The queue mutation of `process_request_randomness`: compute the
combined hash with `idx = item_count`, reject discriminators longer than
8 bytes (only after hashing), then `add_item` the base item (`used = 0`;
`add_item` sets it to 1 when storing). -/
def request_add (s : QState) (seed : List Nat) (slot : Nat)
    (slothash disc cpid : List Nat) (time prio : Nat) (metas : List CMeta)
    (args : List Nat) : Except PErr (QState × Nat) :=
  let idx := s.itemCount
  let id := requestId seed slot slothash disc cpid time idx
  if 8 < disc.length then .error .ArgumentSizeTooLarge
  else add_item s ⟨slot, id, cpid, 0, 0, 0, 0, 0, 0, prio, 0⟩ disc metas args

/-- Queue states reachable by request insertions and removals
(`ProvideRandomness` and `PurgeExpiredRequests` both remove via
`remove_item`), together with the list of ids inserted so far. -/
inductive RReach : QState → List (List Nat) → Prop where
  | load (L : Nat) (hcap : L ≤ 10485760) (s : QState)
      (h : load (zeroMem L) = .ok s) : RReach s []
  | request (s : QState) (ids : List (List Nat)) (hs : RReach s ids)
      (seed : List Nat) (slot : Nat) (slothash disc cpid : List Nat)
      (time prio : Nat) (metas : List CMeta) (args : List Nat)
      (hwf : AddWF ⟨slot, requestId seed slot slothash disc cpid time s.itemCount,
        cpid, 0, 0, 0, 0, 0, 0, prio, 0⟩ disc metas args)
      (s1 : QState) (i : Nat)
      (h : request_add s seed slot slothash disc cpid time prio metas args = .ok (s1, i)) :
      RReach s1 (ids ++ [requestId seed slot slothash disc cpid time s.itemCount])
  | remove (s : QState) (ids : List (List Nat)) (hs : RReach s ids) (index : Nat)
      (s1 : QState) (it : QueueItem) (h : remove_item s index = .ok (s1, it)) :
      RReach s1 ids

/-- Along request reachability the layout's ids are exactly the inserted
ids, in order (removal only clears the `used` flag in place). -/
theorem rreach_inv (s : QState) (ids : List (List Nat)) (h : RReach s ids) :
    QInv s ∧ (qwalk s).map (fun pi => pi.2.id) = ids := by
  induction h with
  | load L hcap s h =>
    refine ⟨(qinv_load L hcap s h).1, ?_⟩
    rw [(qinv_load L hcap s h).2.1]
    rfl
  | request s ids hs seed slot slothash disc cpid time prio metas args hwf s1 i h ih =>
    unfold request_add at h
    dsimp only at h
    by_cases hd : 8 < disc.length
    · rw [if_pos hd] at h
      cases h
    · rw [if_neg hd] at h
      obtain ⟨hinv1, hi, hcnt, hlen, hcur, hwalk⟩ :=
        qinv_add s ih.1 _ disc metas args hwf s1 i h
      refine ⟨hinv1, ?_⟩
      rw [hwalk, List.map_append, ih.2]
      rfl
  | remove s ids hs index s1 it h ih =>
    obtain ⟨cpos, it2, hsome, hrit, hu, hinv1, hcnt, hcur, hidx, hlen, hwalk⟩ :=
      qinv_remove s ih.1 index s1 it h
    refine ⟨hinv1, ?_⟩
    rw [hwalk]
    have hmem : (cpos, it2) ∈ qwalk s := by
      have h1 : (cpos, it2) ∈ usedEntries (qwalk s) := List.getElem?_mem hsome
      exact (List.mem_filter.mp h1).1
    rw [ids_map_flip cpos it2 (qwalk s) hmem
      (walk_pos_pairwise (s.mem.len + 1) s.mem (qend s) itemsStart)]
    exact ih.2

/-- In a list of items with pairwise-distinct ids, at most one item
carries any given id. -/
theorem filter_id_length_le_one (l : List QueueItem) (v : List Nat)
    (h : (l.map (fun it => it.id)).Pairwise (fun a b => a ≠ b)) :
    (l.filter (fun it => it.id == v)).length ≤ 1 := by
  induction l with
  | nil => simp
  | cons hd tl ih =>
    rw [List.map_cons, List.pairwise_cons] at h
    rw [List.filter_cons]
    by_cases he : hd.id = v
    · have hnil : tl.filter (fun it => it.id == v) = [] := by
        rw [List.filter_eq_nil_iff]
        intro it hit
        have hne := h.1 it.id (List.mem_map.mpr ⟨it, hit, rfl⟩)
        simp only [beq_iff_eq]
        intro heq
        exact hne (he.trans heq.symm)
      simp [he, hnil]
    · have hbe : (hd.id == v) = false := by simp [he]
      rw [hbe]
      exact ih h.2

/-- **C5, amended.** Along every sequence of request insertions and
removals in which the inserted request ids are pairwise distinct, each
32-byte id value occurs in at most one used item of the queue. The
distinctness hypothesis is necessary: the id hashes the queue's
`item_count` as the insertion index, and a removal lets a later request
with the same seed, slot, slothash, discriminator, program and timestamp
reuse an index, producing the same id in two used items (see the
counterexample). -/
theorem c5_request_id_uniqueness (s : QState) (ids : List (List Nat))
    (h : RReach s ids) (hdistinct : ids.Pairwise (fun a b => a ≠ b)) :
    ∀ v, ((iter_items s).filter (fun it => it.id == v)).length ≤ 1 := by
  obtain ⟨inv, hids⟩ := rreach_inv s ids h
  intro v
  have hiter : iter_items s =
      ((qwalk s).filter (fun pi => pi.2.used == 1)).map (fun pi => pi.2) :=
    iterItemsAux_eq_walk (s.mem.len + 1) s.mem (qend s) itemsStart
  have hsub : ((qwalk s).filter (fun pi => pi.2.used == 1)).Sublist (qwalk s) :=
    List.filter_sublist _
  have hsubm : (((qwalk s).filter (fun pi => pi.2.used == 1)).map
      (fun pi => pi.2.id)).Sublist ((qwalk s).map (fun pi => pi.2.id)) :=
    hsub.map _
  have hpw : (((qwalk s).filter (fun pi => pi.2.used == 1)).map
      (fun pi => pi.2.id)).Pairwise (fun a b => a ≠ b) := by
    rw [hids] at hsubm
    exact hdistinct.sublist hsubm
  rw [hiter]
  apply filter_id_length_le_one
  rw [List.map_map]
  exact hpw

/-- The freshly loaded empty 200-byte queue for the C5 witness. -/
def c5wS : QState := ⟨0, itemsStart, 0, zeroMem 200⟩

/-- **C5, witness.** The amended statement evaluated on the empty queue
at the all-zero id value. -/
theorem c5_witness :
    ((iter_items c5wS).filter (fun it => it.id == List.replicate 32 0)).length ≤ 1 :=
  c5_request_id_uniqueness c5wS [] (RReach.load 200 (by norm_num) c5wS rfl)
    (by simp) (List.replicate 32 0)

/-- The 32 zero bytes serving as seed, slothash and program id of the
colliding requests. -/
def c5cZ : List Nat := List.replicate 32 0

/-- **C5, counterexample.** Three identical requests (same seed, slot,
slothash, empty discriminator, program id and timestamp) with a removal
in between: the first two get insertion indices 0 and 1; removing the
first brings `item_count` back to 1, so the third request reuses index 1
and hashes to the *same* id as the second. The final queue holds two
used items with one id, refuting per-queue id uniqueness. -/
theorem c5_counterexample :
    ∃ sA sB sC sD itR sE i2,
      load (zeroMem 400) = .ok sA ∧
      request_add sA c5cZ 0 c5cZ [] c5cZ 0 0 [] [] = .ok (sB, 0) ∧
      request_add sB c5cZ 0 c5cZ [] c5cZ 0 0 [] [] = .ok (sC, 1) ∧
      remove_item sC 0 = .ok (sD, itR) ∧
      request_add sD c5cZ 0 c5cZ [] c5cZ 0 0 [] [] = .ok (sE, i2) ∧
      ((iter_items sE).filter
        (fun it => it.id == requestId c5cZ 0 c5cZ [] c5cZ 0 1)).length = 2 ∧
      ∀ it ∈ iter_items sE, it.used = 1 := by
  refine ⟨_, _, _, _, _, _, _, rfl, rfl, rfl, rfl, rfl, ?_, ?_⟩
  · decide
  · decide

/-! ### Item accessors over the account bytes (`api/src/state/queue.rs`) -/

/-- `QueueItem::callback_discriminator`: bounds-checked; out-of-range
yields the empty slice. -/
def callback_discriminator (it : QueueItem) (m : Mem) : List Nat :=
  if m.len < it.callback_discriminator_offset + it.callback_discriminator_len then []
  else m.read it.callback_discriminator_offset it.callback_discriminator_len

/-- `QueueItem::account_metas`: `&acc[start..start + metas_len * 33]`
with *no* bounds check — the slice index panics when the range exceeds
the account, so the result is `none` there. -/
def account_metas (it : QueueItem) (m : Mem) : Option (List CMeta) :=
  if m.len < it.metas_offset + it.metas_len * 33 then none
  else some ((List.range it.metas_len).map (fun k =>
    ⟨m.read (it.metas_offset + 33 * k) 32, m.data (it.metas_offset + 33 * k + 32)⟩))

/-- `QueueItem::callback_args`: bounds-checked; out-of-range yields the
empty slice. -/
def callback_args (it : QueueItem) (m : Mem) : List Nat :=
  if m.len < it.args_offset + it.args_len then []
  else m.read it.args_offset it.args_len

/-- **C9, amended.** The discriminator and args accessors are
bounds-checked (an out-of-range stored length yields the empty slice)
and queue iteration only parses items lying entirely inside the
traversal bound, hence inside the account. But
`QueueItem::account_metas` is *not* total: it slices
`acc[metas_offset .. metas_offset + metas_len * 33]` without a bounds
check, so a corrupt `metas_len` makes it panic (modelled as `none`)
instead of yielding an empty result. -/
theorem c9_accessors_and_iteration_bounds :
    (∀ it : QueueItem, ∀ m : Mem,
      it.callback_discriminator_offset + it.callback_discriminator_len ≤ m.len ∨
      callback_discriminator it m = []) ∧
    (∀ it : QueueItem, ∀ m : Mem,
      it.args_offset + it.args_len ≤ m.len ∨ callback_args it m = []) ∧
    (∀ it : QueueItem, ∀ m : Mem,
      (account_metas it m = none ↔ m.len < it.metas_offset + it.metas_len * 33)) ∧
    (∀ s : QState, ∀ pi ∈ qwalk s, pi.1 + 96 ≤ s.mem.len) := by
  refine ⟨?_, ?_, ?_, ?_⟩
  · intro it m
    by_cases h : it.callback_discriminator_offset + it.callback_discriminator_len ≤ m.len
    · exact Or.inl h
    · refine Or.inr ?_
      unfold callback_discriminator
      rw [if_pos (by omega)]
  · intro it m
    by_cases h : it.args_offset + it.args_len ≤ m.len
    · exact Or.inl h
    · refine Or.inr ?_
      unfold callback_args
      rw [if_pos (by omega)]
  · intro it m
    unfold account_metas
    split
    · rename_i h
      simpa using h
    · rename_i h
      simp
      omega
  · intro s pi hpi
    have h := (walk_pos_ge (s.mem.len + 1) s.mem (qend s) itemsStart pi hpi).2
    have h2 : qend s ≤ s.mem.len := Nat.min_le_left ..
    omega

/-- **C9, witness.** The iteration-bound conjunct evaluated on the
concrete one-item queue of the C7 evaluation. -/
theorem c9_witness : ((16, c7wItem) : Nat × QueueItem).1 + 96 ≤ c7wS1.mem.len :=
  c9_accessors_and_iteration_bounds.2.2.2 c7wS1 (16, c7wItem) (by decide)

/-- A corrupt item: `metas_len = 60000` places the metas range far past
the 200-byte account. -/
def c9cItem : QueueItem :=
  ⟨0, List.replicate 32 0, List.replicate 32 0, 0, 0, 0, 60000, 60000, 60000, 0, 1⟩

/-- **C9, counterexample.** On a corrupt item the discriminator and args
accessors degrade to the empty slice as claimed, but `account_metas`
panics (`none`): it neither yields an empty result nor stops, refuting
the claim for that accessor. -/
theorem c9_counterexample :
    account_metas c9cItem (zeroMem 200) = none ∧
    callback_discriminator c9cItem (zeroMem 200) = [] ∧
    callback_args c9cItem (zeroMem 200) = [] :=
  ⟨by decide, by decide, by decide⟩

/-! ### Oracle registry administration (`program/src/modify_oracles.rs`) -/

/-- Modelled from the spec: the Oracle data account holds `vrf_pubkey`,
`registration_slot` and the `open_queue` counter; the `Oracle` struct is
referenced by the handlers but defined in no file of the repository. -/
structure Oracle where
  vrf_pubkey : List Nat
  registration_slot : Nat
  open_queue : Nat
deriving Repr, DecidableEq

/-- The production admin pubkey
`3FwNxjbCqdD7G6MkrAdwTd5Zf6R3tHoapam4Pv1X2KBB` (`api/src/consts.rs`). -/
def ADMIN_PUBKEY : List Nat :=
  [33, 138, 253, 197, 221, 167, 226, 154, 190, 156, 214, 40, 180, 167, 100, 158,
   226, 253, 174, 155, 5, 192, 154, 225, 83, 175, 106, 52, 139, 99, 106, 30]

/-- `process_modify_oracles` after account resolution: the admin
signature check, then either add (append the identity to the registry
and create a fresh Oracle data account stamped with the current slot) or
remove (drop the identity from the registry and close the Oracle data
account). The remove branch never reads the Oracle data — in particular
it performs no `open_queue` check. -/
def process_modify_oracles (signer_key : List Nat) (operation : Nat)
    (identity oracle_pubkey : List Nat) (current_slot : Nat)
    (registry : List (List Nat)) (oracle_data : Option Oracle) :
    Except PErr (List (List Nat) × Option Oracle) :=
  if signer_key ≠ ADMIN_PUBKEY then .error .Unauthorized
  else if operation = 0 then
    .ok (registry ++ [identity],
      some { vrf_pubkey := oracle_pubkey, registration_slot := current_slot,
             open_queue := 0 })
  else
    .ok (registry.filter (fun k => !(k == identity)), none)

/-- **C8, amended.** An admin-signed `ModifyOracle` remove operation
always succeeds, removing the identity from the registry and closing the
Oracle data account, *whatever* the oracle's `open_queue` counter is:
the remove branch never reads the Oracle data account, so the claimed
`open_queue == 0` precondition is not enforced. -/
theorem c8_remove_ignores_open_queue (signer_key : List Nat) (operation : Nat)
    (identity oracle_pubkey : List Nat) (current_slot : Nat)
    (registry : List (List Nat)) (oracle_data : Option Oracle)
    (hadmin : signer_key = ADMIN_PUBKEY) (hop : operation ≠ 0) :
    process_modify_oracles signer_key operation identity oracle_pubkey current_slot
        registry oracle_data =
      .ok (registry.filter (fun k => !(k == identity)), none) := by
  unfold process_modify_oracles
  rw [if_neg (by simp [hadmin]), if_neg hop]

/-- **C8, witness.** The amended statement evaluated on a registry of one
oracle whose data account has `open_queue = 1`. -/
theorem c8_witness :
    process_modify_oracles ADMIN_PUBKEY 1 (List.replicate 32 7) (List.replicate 32 0)
        0 [List.replicate 32 7] (some ⟨List.replicate 32 0, 0, 1⟩) =
      .ok ([List.replicate 32 7].filter (fun k => !(k == List.replicate 32 7)), none) :=
  c8_remove_ignores_open_queue ADMIN_PUBKEY 1 (List.replicate 32 7)
    (List.replicate 32 0) 0 [List.replicate 32 7]
    (some ⟨List.replicate 32 0, 0, 1⟩) rfl (by decide)

/-- **C8, counterexample.** With `open_queue = 1` the remove operation
still succeeds and the Oracle data account is closed (`none`), refuting
the claimed `open_queue == 0` precondition. -/
theorem c8_counterexample :
    process_modify_oracles ADMIN_PUBKEY 1 (List.replicate 32 7) (List.replicate 32 0)
        0 [List.replicate 32 7] (some ⟨List.replicate 32 0, 0, 1⟩) = .ok ([], none) ∧
    (some (⟨List.replicate 32 0, 0, 1⟩ : Oracle)).all (fun o => o.open_queue ≠ 0) :=
  ⟨by decide, by decide⟩

/-! ### Fee transfers (`program/src/fees.rs`) -/

/-- An account as `transfer_fee` sees it. -/
structure AccountView where
  key : List Nat
  owner : List Nat
  is_writable : Bool
  lamports : Nat
deriving Repr, DecidableEq

/-- `u64::checked_sub`. -/
def checked_sub64 (a b : Nat) : Option Nat := if a < b then none else some (a - b)

/-- `u64::checked_add`. -/
def checked_add64 (a b : Nat) : Option Nat :=
  if 2 ^ 64 ≤ a + b then none else some (a + b)

/-- `Pubkey::default()`. -/
def ZERO_PUBKEY : List Nat := List.replicate 32 0

/-- `transfer_fee`: zero-key sanity check, debit with `checked_sub`
(`InsufficientFunds`), credit with `checked_add` (`InvalidArgument`).
The function returns its result together with the final account states:
the debit is written through before the credit is attempted, so a credit
overflow leaves the source already debited. -/
def transfer_fee (src dst : AccountView) (amount : Nat) :
    Except PErr Unit × AccountView × AccountView :=
  if src.key = ZERO_PUBKEY ∨ dst.key = ZERO_PUBKEY then
    (.error .InvalidArgument, src, dst)
  else
    match checked_sub64 src.lamports amount with
    | none => (.error .InsufficientFunds, src, dst)
    | some q1 =>
      match checked_add64 dst.lamports amount with
      | none => (.error .InvalidArgument, { src with lamports := q1 }, dst)
      | some o1 => (.ok (), { src with lamports := q1 }, { dst with lamports := o1 })

/-- **C10, amended.** `transfer_fee` validates only that neither pubkey
is the zero key — the owner and writability fields never influence the
result (the comment in `fees.rs` defers those checks to the caller). It
fails with `InsufficientFunds` exactly when the debit would make the
source balance negative, and with `InvalidArgument` on a zero key or on
credit overflow — but in the overflow case the source has already been
debited, so the two balances are *not* both unchanged on that failure. -/
theorem c10_transfer_fee_checks (src dst : AccountView) (amount : Nat) :
    ((transfer_fee src dst amount).1 = .error .InsufficientFunds ↔
      ¬(src.key = ZERO_PUBKEY ∨ dst.key = ZERO_PUBKEY) ∧ src.lamports < amount) ∧
    (∀ o : List Nat, ∀ w : Bool,
      (transfer_fee { src with owner := o, is_writable := w } dst amount).1 =
        (transfer_fee src dst amount).1) ∧
    (¬(src.key = ZERO_PUBKEY ∨ dst.key = ZERO_PUBKEY) → amount ≤ src.lamports →
      2 ^ 64 ≤ dst.lamports + amount →
      transfer_fee src dst amount =
        (.error .InvalidArgument, { src with lamports := src.lamports - amount }, dst)) := by
  refine ⟨?_, ?_, ?_⟩
  · unfold transfer_fee checked_sub64 checked_add64
    by_cases hz : src.key = ZERO_PUBKEY ∨ dst.key = ZERO_PUBKEY
    · rw [if_pos hz]
      simp [hz]
    · rw [if_neg hz]
      by_cases hlt : src.lamports < amount
      · rw [if_pos hlt]
        simp [hz, hlt]
      · rw [if_neg hlt]
        by_cases hov : 2 ^ 64 ≤ dst.lamports + amount
        · rw [if_pos hov]
          simp [hz, hlt]
        · rw [if_neg hov]
          simp [hz, hlt]
  · intro o w
    unfold transfer_fee checked_sub64 checked_add64
    by_cases hz : src.key = ZERO_PUBKEY ∨ dst.key = ZERO_PUBKEY
    · rw [if_pos (by simpa using hz), if_pos hz]
    · rw [if_neg (by simpa using hz), if_neg hz]
      by_cases hlt : src.lamports < amount
      · rw [if_pos hlt]
      · rw [if_neg hlt]
        by_cases hov : 2 ^ 64 ≤ dst.lamports + amount
        · rw [if_pos hov]
        · rw [if_neg hov]
  · intro hz hle hov
    unfold transfer_fee checked_sub64 checked_add64
    rw [if_neg hz, if_neg (by omega), if_pos hov]

/-- The source account of the C10 evaluations: owned by a stranger key,
not writable. -/
def c10wSrc : AccountView := ⟨1 :: List.replicate 31 0, 3 :: List.replicate 31 0, false, 5⟩

/-- The destination account of the C10 overflow evaluation. -/
def c10wDst : AccountView := ⟨2 :: List.replicate 31 0, 3 :: List.replicate 31 0, false, 2 ^ 64 - 1⟩

/-- **C10, witness.** The overflow conjunct evaluated concretely: the
transfer fails with `InvalidArgument` and the source is left debited. -/
theorem c10_witness :
    transfer_fee c10wSrc c10wDst 3 =
      (.error .InvalidArgument, { c10wSrc with lamports := c10wSrc.lamports - 3 }, c10wDst) :=
  (c10_transfer_fee_checks c10wSrc c10wDst 3).2.2 (by decide) (by decide) (by decide)

/-- **C10, counterexample.** A transfer whose source is owned by a
stranger program and whose accounts are both non-writable succeeds —
no ownership or writability validation happens — and on credit overflow
the function returns with the source already debited (5 → 2), so the
balances are not left unchanged on failure. -/
theorem c10_counterexample :
    transfer_fee c10wSrc ⟨2 :: List.replicate 31 0, 3 :: List.replicate 31 0, false, 7⟩ 3 =
      (.ok (), ⟨1 :: List.replicate 31 0, 3 :: List.replicate 31 0, false, 2⟩,
        ⟨2 :: List.replicate 31 0, 3 :: List.replicate 31 0, false, 10⟩) ∧
    transfer_fee c10wSrc c10wDst 3 =
      (.error .InvalidArgument,
        ⟨1 :: List.replicate 31 0, 3 :: List.replicate 31 0, false, 2⟩, c10wDst) :=
  ⟨by decide, by decide⟩

end EVrf
